import Mathlib

/-!
Verification of the m3u8 video downloader (`src/main.py`).

The program's string processing is embedded at the level of `List Char`,
with the Python string operations (`str.splitlines`, `str.strip`,
`str.split`, `str.replace`, `in`, `startswith`, `re.search`) modelled
faithfully, including Python's whitespace and line-break character sets.
`urllib.parse.urljoin` is an external library function; every definition
that uses it is parameterised over an arbitrary resolver
`uj : List Char → List Char → List Char`.
-/

set_option maxHeartbeats 2000000

/-- Python whitespace characters: the set stripped by `str.strip()`
(characters for which `str.isspace()` holds). -/
def pyWs (c : Char) : Bool :=
  c == ' ' || c == '\t' || c == '\n' || c == '\r' || c == '\x0b' || c == '\x0c' ||
  c == '\x1c' || c == '\x1d' || c == '\x1e' || c == '\x1f' || c == '\x85' ||
  c == '\xa0' || c == '\u1680' || c == '\u2000' || c == '\u2001' || c == '\u2002' ||
  c == '\u2003' || c == '\u2004' || c == '\u2005' || c == '\u2006' || c == '\u2007' ||
  c == '\u2008' || c == '\u2009' || c == '\u200a' || c == '\u2028' || c == '\u2029' ||
  c == '\u202f' || c == '\u205f' || c == '\u3000'

/-- Python line-break characters: the boundaries recognised by
`str.splitlines()` (with `\r\n` counting as a single break). -/
def isBreak (c : Char) : Bool :=
  c == '\n' || c == '\r' || c == '\x0b' || c == '\x0c' || c == '\x1c' ||
  c == '\x1d' || c == '\x1e' || c == '\x85' || c == '\u2028' || c == '\u2029'

/-- Helper for `pySplitlines`: prepend a character to the first line. -/
def consHead (c : Char) : List (List Char) → List (List Char)
  | [] => [[c]]
  | p :: ps => (c :: p) :: ps

/-- Python `str.splitlines()` on a character list: split at every
line-break character, treating `\r\n` as one boundary; a trailing
break does not produce a final empty line. -/
def pySplitlines : List Char → List (List Char)
  | [] => []
  | '\r' :: '\n' :: rest => [] :: pySplitlines rest
  | c :: rest => if isBreak c then [] :: pySplitlines rest else consHead c (pySplitlines rest)

/-- `List.dropWhile` from the end of the list. -/
def dropEndWhile (p : Char → Bool) (l : List Char) : List Char :=
  (l.reverse.dropWhile p).reverse

/-- Python `str.strip()` on a character list. -/
def pyStrip (l : List Char) : List Char :=
  dropEndWhile pyWs (l.dropWhile pyWs)

/-- Python `s.split("\n\n")` on a character list: leftmost,
non-overlapping splitting at occurrences of two consecutive newlines. -/
def splitNN : List Char → List (List Char)
  | '\n' :: '\n' :: rest => [] :: splitNN rest
  | c :: rest =>
    match splitNN rest with
    | [] => [[c]]
    | p :: ps => (c :: p) :: ps
  | [] => [[]]

/-- Python `sep.join(pieces)`. -/
def joinSep (s : List Char) : List (List Char) → List Char
  | [] => []
  | [a] => a
  | a :: b :: rest => a ++ s ++ joinSep s (b :: rest)

/-- Python `pat in s` (substring containment). -/
def containsSub (p : List Char) : List Char → Bool
  | [] => p.isEmpty
  | c :: rest => List.isPrefixOf p (c :: rest) || containsSub p rest

/-- Python `s.replace("WEBVTT\n", "")`: delete every (leftmost,
non-overlapping) occurrence of the seven characters `WEBVTT\n`. -/
def removeWEBVTTnl : List Char → List Char
  | 'W' :: 'E' :: 'B' :: 'V' :: 'T' :: 'T' :: '\n' :: rest => removeWEBVTTnl rest
  | c :: rest => c :: removeWEBVTTnl rest
  | [] => []

/-- Decimal digits of `n`, most significant first (fuel-driven so that
it reduces definitionally; the fuel `n + 1` always suffices). -/
def decCharsAux : Nat → Nat → List Char → List Char
  | 0, _, acc => acc
  | fuel + 1, n, acc =>
    if n < 10 then Char.ofNat (48 + n) :: acc
    else decCharsAux fuel (n / 10) (Char.ofNat (48 + n % 10) :: acc)

/-- Python `str(n)` for a natural number `n`. -/
def decChars (n : Nat) : List Char := decCharsAux (n + 1) n []

/-- Replace every line-break character by a newline, leave the rest. -/
def mapBreak (c : Char) : Char := if isBreak c then '\n' else c

example : pySplitlines ("ab\ncd\n".data) = [['a', 'b'], ['c', 'd']] := by decide

example : splitNN ("a\n\n\nb".data) = [['a'], ['\n', 'b']] := by decide

example : pyStrip (" ab c\n".data) = "ab c".data := by decide

example : decChars 123 = ['1', '2', '3'] := by decide

example : removeWEBVTTnl ("xWEBVTT\nyWEBVTT".data) = "xyWEBVTT".data := by decide

/-- Literal `"RESOLUTION="` from the regex in `list_playlists`. -/
def resolutionLit : List Char := ("RESOLUTION=".data)

/-- One anchored attempt of the regex `RESOLUTION=(\d+x\d+)` at the head of
`l`: the literal, then one or more digits, an `x`, and one or more digits
(greedy matching, as `re` does). -/
def tryResAt (l : List Char) : Option (List Char) :=
  if List.isPrefixOf resolutionLit l then
    let after := l.drop resolutionLit.length
    let d1 := after.takeWhile Char.isDigit
    if d1.isEmpty then none
    else
      match after.drop d1.length with
      | 'x' :: rest2 =>
        let d2 := rest2.takeWhile Char.isDigit
        if d2.isEmpty then none else some (d1 ++ 'x' :: d2)
      | _ => none
  else none

/-- Python `re.search(r'RESOLUTION=(\d+x\d+)', line)`: the group of the
leftmost match, if any. -/
def searchResolution : List Char → Option (List Char)
  | [] => none
  | c :: rest =>
    match tryResAt (c :: rest) with
    | some r => some r
    | none => searchResolution rest

/-- `m.group(1) if m else "Unknown resolution"` from `list_playlists`. -/
def resolutionOf (line : List Char) : List Char :=
  (searchResolution line).getD ("Unknown resolution".data)

/-- `is_master_playlist` from `src/main.py`:
`"#EXT-X-STREAM-INF" in m3u8_content`. -/
def is_master_playlist (content : List Char) : Bool :=
  containsSub ("#EXT-X-STREAM-INF".data) content

/-- The variant-info marker prefix `"#EXT-X-STREAM-INF"`. -/
def streamInfLit : List Char := ("#EXT-X-STREAM-INF".data)

/-- The loop body of `list_playlists`: iterate over the enumerated lines;
on a marker line, read `lines[i+1]` (an out-of-range access raises
`IndexError`, modelled as `Except.error ()`), and accumulate
`(resolution, urljoin(base_url, lines[i+1].strip()))`.  `all` is the full
line list, the `List (List Char)` argument is the suffix from position `i`. -/
def lpAux (uj : List Char → List Char → List Char) (base : List Char)
    (all : List (List Char)) :
    List (List Char) → Nat → Except Unit (List (List Char × List Char))
  | [], _ => Except.ok []
  | line :: rest, i =>
    if List.isPrefixOf streamInfLit line then
      match all[i + 1]? with
      | none => Except.error ()
      | some nxt =>
        (lpAux uj base all rest (i + 1)).map
          (fun tail => (resolutionOf line, uj base (pyStrip nxt)) :: tail)
    else lpAux uj base all rest (i + 1)

/-- `lines = m3u8_content.strip().splitlines()` from `list_playlists`. -/
def linesOf (content : List Char) : List (List Char) :=
  pySplitlines (pyStrip content)

/-- `list_playlists` from `src/main.py` (the `urljoin` resolver is a
parameter `uj`): `lines = m3u8_content.strip().splitlines()`, then scan. -/
def list_playlists (uj : List Char → List Char → List Char)
    (content base : List Char) : Except Unit (List (List Char × List Char)) :=
  lpAux uj base (linesOf content) (linesOf content) 0

/-- The list comprehension of `parse_segments`, line by line. -/
def psGo (uj : List Char → List Char → List Char) (base : List Char) :
    List (List Char) → List (List Char)
  | [] => []
  | line :: rest =>
    if !List.isPrefixOf ("#".data) line && !(pyStrip line).isEmpty then
      uj base (pyStrip line) :: psGo uj base rest
    else psGo uj base rest

/-- `parse_segments` from `src/main.py`:
`[urljoin(base_url, line.strip()) for line in m3u8_content.splitlines()
if not line.startswith("#") and line.strip()]`. -/
def parse_segments (uj : List Char → List Char → List Char)
    (content base : List Char) : List (List Char) :=
  psGo uj base (pySplitlines content)

/-- Literal `"URI=\""` from the regex in `find_subtitles`. -/
def uriLit : List Char := ("URI=\"".data)

/-- One anchored attempt of the regex `URI="([^"]+)"` at the head of `l`. -/
def tryURIAt (l : List Char) : Option (List Char) :=
  if List.isPrefixOf uriLit l then
    let after := l.drop uriLit.length
    let u := after.takeWhile (fun c => c ≠ '"')
    if u.isEmpty then none
    else
      match after.drop u.length with
      | '"' :: _ => some u
      | _ => none
  else none

/-- Python `re.search(r'URI="([^"]+)"', line)`: group of leftmost match. -/
def searchURI : List Char → Option (List Char)
  | [] => none
  | c :: rest =>
    match tryURIAt (c :: rest) with
    | some r => some r
    | none => searchURI rest

/-- The loop body of `find_subtitles`. -/
def fsGo (uj : List Char → List Char → List Char) (base : List Char) :
    List (List Char) → List (List Char)
  | [] => []
  | line :: rest =>
    if List.isPrefixOf ("#EXT-X-MEDIA".data) line &&
        containsSub ("TYPE=SUBTITLES".data) line then
      match searchURI line with
      | some u => uj base u :: fsGo uj base rest
      | none => fsGo uj base rest
    else fsGo uj base rest

/-- `find_subtitles` from `src/main.py`. -/
def find_subtitles (uj : List Char → List Char → List Char)
    (content base : List Char) : List (List Char) :=
  fsGo uj base (pySplitlines content)

/-- The time-range separator `"-->"` tested by `vtt_to_srt`. -/
def arrowLit : List Char := ['-', '-', '>']

/-- The block loop of `vtt_to_srt`, carrying the counter: for each block,
`lines = block.strip().splitlines()`; empty blocks are skipped; if the
first line contains `-->`, the counter is prepended (as its decimal
string) and incremented; blocks are re-joined with `"\n"`. -/
def vttBlocks (k : Nat) : List (List Char) → List (List Char)
  | [] => []
  | piece :: rest =>
    let ls := pySplitlines (pyStrip piece)
    if ls.isEmpty then vttBlocks k rest
    else if containsSub arrowLit (ls.headD []) then
      joinSep ['\n'] (decChars k :: ls) :: vttBlocks (k + 1) rest
    else joinSep ['\n'] ls :: vttBlocks k rest

/-- `vtt_to_srt` from `src/main.py`, on character lists:
`"\n\n".join(srt).replace("WEBVTT\n", "").strip()` over the blocks of
`vtt_text.replace("\r", "").split("\n\n")`. -/
def vttCore (t : List Char) : List Char :=
  pyStrip (removeWEBVTTnl (joinSep ['\n', '\n']
    (vttBlocks 1 (splitNN (t.filter (fun c => c ≠ '\r'))))))

/-- `vtt_to_srt` as a `String` transformation. -/
def vtt_to_srt (s : String) : String := String.mk (vttCore s.data)

/-- Result of `download_binary_with_retry`: a successful return, a raised
exception, or the implicit `None` return when the loop body never runs
(only possible when `max_retries = 0`). -/
inductive RetryResult (ε β : Type) where
  | ok (b : β)
  | raised (e : ε)
  | fellThrough
  deriving DecidableEq

/-- The retry loop of `download_binary_with_retry`, iterating over the
attempt numbers `range(1, max_retries + 1)`.  `f k` is the outcome of the
`k`-th network attempt.  The second component records the `time.sleep`
durations, in order (the code sleeps `backoff * attempt`). -/
def retryGo (f : Nat → Except ε β) (maxRetries backoff : Nat) :
    List Nat → RetryResult ε β × List Nat
  | [] => (RetryResult.fellThrough, [])
  | attempt :: rest =>
    match f attempt with
    | Except.ok b => (RetryResult.ok b, [])
    | Except.error e =>
      if attempt == maxRetries then (RetryResult.raised e, [])
      else
        let r := retryGo f maxRetries backoff rest
        (r.1, backoff * attempt :: r.2)

/-- `download_binary_with_retry` from `src/main.py` (defaults in the
source: `max_retries=3`, `backoff=1`). -/
def download_binary_with_retry (f : Nat → Except ε β) (maxRetries backoff : Nat) :
    RetryResult ε β × List Nat :=
  retryGo f maxRetries backoff (List.range' 1 maxRetries)

/-- The sequential consumption of `executor.map(download_and_track,
segments)`: results are consumed in submission order, and the first
raised exception propagates. -/
def downloadAll (dl : List Char → Except ε (List Nat)) (segs : List (List Char)) :
    Except ε (List (List Nat)) :=
  segs.mapM dl

deriving instance DecidableEq for Except

example :
    parse_segments (fun b r => b ++ r) ("#EXTM3U\nseg1.ts\n\nseg2.ts".data) ("http://h/".data)
      = ["http://h/seg1.ts".data, "http://h/seg2.ts".data] := by decide

example :
    list_playlists (fun b r => b ++ r)
      ("#EXT-X-STREAM-INF:RESOLUTION=640x360\nlow.m3u8".data) ("http://h/".data)
      = Except.ok [("640x360".data, "http://h/low.m3u8".data)] := by decide

example :
    list_playlists (fun b r => b ++ r)
      ("x\n#EXT-X-STREAM-INF:BANDWIDTH=1".data) ("http://h/".data)
      = Except.error () := by decide

example :
    vtt_to_srt ("WEBVTT\n\n00:01.000 --> 00:02.000\nHi") = "1\n00:01.000 --> 00:02.000\nHi" := by
  decide

/-- Events of the segment-acquisition engine (lines 126-140 of
`src/main.py`): a progress notification (the `print_progress_bar` call,
recording which segment's completion triggered it and the
`(completedCount, totalCount)` shown), and a write of one segment's bytes
to the output file. -/
inductive Ev where
  | prog (seg cur tot : Nat)
  | write (idx : Nat)
  deriving DecidableEq

/-- State of the acquisition engine: the shared counter `progress['count']`,
the completed-but-not-yet-consumed futures of `executor.map` (index and
payload), the submission-order index the main thread will consume next,
the event trace, and the bytes written to the output file so far. -/
structure EngSt where
  count : Nat
  buf : List (Nat × List Nat)
  nextWrite : Nat
  events : List Ev
  out : List Nat
  deriving DecidableEq

/-- Look up a completed result by its segment index. -/
def lookupBuf (w : Nat) (buf : List (Nat × List Nat)) : Option (Nat × List Nat) :=
  buf.find? (fun p => p.1 == w)

/-- The main thread consuming `executor.map` results: as long as the next
segment in submission order has completed, write its bytes to the output
file.  Fuel-driven; the callers pass fuel that always suffices. -/
def flushFuel : Nat → EngSt → EngSt
  | 0, s => s
  | fuel + 1, s =>
    match lookupBuf s.nextWrite s.buf with
    | none => s
    | some p =>
      flushFuel fuel
        { s with
          nextWrite := s.nextWrite + 1,
          out := s.out ++ p.2,
          events := s.events ++ [Ev.write s.nextWrite] }

/-- One completion event of `download_and_track` for segment `i` (of `n`):
under the lock the shared counter is incremented and the progress bar is
printed, the result becomes available to `executor.map`, and then the
main thread writes any now-consumable results in submission order. -/
def engStep (dl : Nat → List Nat) (n : Nat) (s : EngSt) (i : Nat) : EngSt :=
  let s1 : EngSt :=
    { count := s.count + 1,
      buf := (i, dl i) :: s.buf,
      nextWrite := s.nextWrite,
      events := s.events ++ [Ev.prog i (s.count + 1) n],
      out := s.out }
  flushFuel s1.buf.length s1

/-- Initial engine state. -/
def engInit : EngSt :=
  { count := 0, buf := [], nextWrite := 0, events := [], out := [] }

/-- A run of the concurrent acquisition engine over `n` segments with
payloads `dl`, where `order` lists the segment indices in the order in
which their downloads complete. -/
def engineRun (dl : Nat → List Nat) (n : Nat) (order : List Nat) : EngSt :=
  order.foldl (engStep dl n) engInit

/-- Downloading the `n` segments strictly sequentially: the concatenation
of the payloads in index order `0..n-1`. -/
def seqDownload (dl : Nat → List Nat) (n : Nat) : List Nat :=
  ((List.range n).map dl).flatten

/-- The progress notifications of a trace, in order:
`(segment, completedCount, totalCount)` triples. -/
def progTriples (evs : List Ev) : List (Nat × Nat × Nat) :=
  evs.filterMap (fun e =>
    match e with
    | Ev.prog s c t => some (s, c, t)
    | Ev.write _ => none)

/-- Outcome of a `main` run (from the point where the master playlist text
has been fetched): an early normal return (no playlists in a master
playlist), an `IndexError` escaping `list_playlists`, the
`RuntimeError("No segments found in playlist.")`, a segment-download
error propagating out of `executor.map`, or completion with the bytes
written to the output stream and the subtitle URLs found. -/
inductive MainOutcome (ε : Type) where
  | noPlaylistsReturn
  | indexError
  | noSegmentsError
  | segmentError (e : ε)
  | done (out : List Nat) (subs : List (List Char))
  deriving DecidableEq

/-- `main` from `src/main.py`, from line 95 on, given the fetched master
playlist text `master`, the caller-supplied URL `url`, the (validated)
interactive resolution choice `choice`, an oracle `fetch` for
`download_text` of the selected media playlist, and an oracle `dl` for
`download_binary_with_retry` of one segment (already including its
retries).  The interactive loop guarantees `1 ≤ choice ≤ len(playlists)`;
outside those bounds this model selects a dummy. -/
def mainModel (uj : List Char → List Char → List Char) (master url : List Char)
    (choice : Nat) (fetch : List Char → List Char)
    (dl : List Char → Except ε (List Nat)) : MainOutcome ε :=
  let subtitle_urls := find_subtitles uj master url
  if is_master_playlist master then
    match list_playlists uj master url with
    | Except.error _ => MainOutcome.indexError
    | Except.ok playlists =>
      if playlists.isEmpty then MainOutcome.noPlaylistsReturn
      else
        let selected := (playlists.getD (choice - 1) ([], [])).2
        let playlist_content := fetch selected
        let segments := parse_segments uj playlist_content selected
        if segments.isEmpty then MainOutcome.noSegmentsError
        else
          match downloadAll dl segments with
          | Except.error e => MainOutcome.segmentError e
          | Except.ok bufs => MainOutcome.done bufs.flatten subtitle_urls
  else
    let segments := parse_segments uj master url
    if segments.isEmpty then MainOutcome.noSegmentsError
    else
      match downloadAll dl segments with
      | Except.error e => MainOutcome.segmentError e
      | Except.ok bufs => MainOutcome.done bufs.flatten subtitle_urls

/-- Whether a `main` outcome is an error that terminates the run with a
non-zero status (a raised exception); an early `return` and normal
completion are not errors. -/
def isErrorOutcome : MainOutcome ε → Bool
  | MainOutcome.noPlaylistsReturn => false
  | MainOutcome.done _ _ => false
  | _ => true

/-- Modelled from the spec: automatic rendition selection (spec §4.2) is
not implemented in `src/main.py` (the code has only the interactive,
index-based selection), so it is modelled from the spec's words: prefer
an exact match on the target resolution; if none matches, fall back to
the first variant in document order. -/
def selectAutomatic (target : List Char) (variants : List (List Char × List Char)) :
    Option (List Char × List Char) :=
  match variants.find? (fun v => v.1 == target) with
  | some v => some v
  | none => variants.head?

/-- The spec's description of variant parsing (spec §4.1): for each
variant-info marker line, the resolution attribute (or the unknown
marker), and as playlist reference the next NON-marker line after it
(a marker line being one starting with `#`), resolved against the base
URL.  Stated for comparison against the code's `list_playlists`. -/
def parseVariants_spec (uj : List Char → List Char → List Char)
    (content base : List Char) : List (List Char × List Char) :=
  let lines := linesOf content
  (List.range lines.length).filterMap (fun i =>
    if List.isPrefixOf streamInfLit (lines.getD i []) then
      match (lines.drop (i + 1)).find? (fun l => !List.isPrefixOf ("#".data) l) with
      | some nxt => some (resolutionOf (lines.getD i []), uj base (pyStrip nxt))
      | none => none
    else none)

example :
    (engineRun (fun i => [i, i]) 2 [1, 0]).events
      = [Ev.prog 1 1 2, Ev.prog 0 2 2, Ev.write 0, Ev.write 1] := by decide

example : (engineRun (fun i => [i, i]) 2 [1, 0]).out = [0, 0, 1, 1] := by decide

example :
    mainModel (fun b r => b ++ r) ("x#EXT-X-STREAM-INF".data) ("u".data) 1
      (fun _ => []) (fun _ => (Except.ok [] : Except Unit (List Nat)))
      = MainOutcome.noPlaylistsReturn := by decide

/-- The keep-condition of the `parse_segments` comprehension:
`not line.startswith("#") and line.strip()`. -/
def segKeep (l : List Char) : Bool :=
  !List.isPrefixOf ("#".data) l && !(pyStrip l).isEmpty

theorem psGo_eq_filter_map (uj : List Char → List Char → List Char)
    (base : List Char) (ls : List (List Char)) :
    psGo uj base ls = (ls.filter segKeep).map (fun l => uj base (pyStrip l)) := by
  induction ls with
  | nil => rfl
  | cons line rest ih =>
    cases hk : segKeep line with
    | true =>
      have h : (!List.isPrefixOf ("#".data) line && !(pyStrip line).isEmpty) = true := hk
      simp [psGo, h, List.filter_cons, hk, ih]
    | false =>
      have h : (!List.isPrefixOf ("#".data) line && !(pyStrip line).isEmpty) = false := hk
      simp [psGo, h, List.filter_cons, hk, ih]

/-- Claim C3: `parse_segments` returns exactly the lines that do not start
with the marker prefix `#` and are non-empty (after stripping, as the
Python truthiness test `line.strip()` requires), each stripped and
resolved against the base URL, in source order; hence a playlist with `S`
such lines yields exactly `S` URLs. -/
theorem claim_C3 (uj : List Char → List Char → List Char) (content base : List Char) :
    parse_segments uj content base
        = ((pySplitlines content).filter segKeep).map (fun l => uj base (pyStrip l)) ∧
    (parse_segments uj content base).length = ((pySplitlines content).filter segKeep).length := by
  refine ⟨psGo_eq_filter_map uj base (pySplitlines content), ?_⟩
  rw [parse_segments, psGo_eq_filter_map uj base (pySplitlines content)]
  exact List.length_map _ _

/-- Claim C6: the worked conversion example from the spec: the `WEBVTT`
header is stripped and the two timestamped blocks receive the synthetic
indices 1 and 2. -/
theorem claim_C6 :
    vtt_to_srt ("WEBVTT\n\n00:00:01.000 --> 00:00:02.000\nHello\n\n00:00:03.000 --> 00:00:04.000\nWorld")
      = "1\n00:00:01.000 --> 00:00:02.000\nHello\n\n2\n00:00:03.000 --> 00:00:04.000\nWorld" := by
  decide

/-- The spec's example rendition list for automatic selection. -/
def exampleRenditions : List (List Char × List Char) :=
  [(("1920x1080".data), ("A".data)), (("1280x720".data), ("B".data)),
   (("640x360".data), ("C".data))]

/-- Claim C8 (spec-modelled: automatic selection does not exist in
`src/main.py`): on a non-empty variant list, automatic selection returns
a variant matching the target exactly when one exists, and otherwise the
first variant in document order; on the spec's example list, targeting
`1280x720` returns `B` and targeting an absent resolution returns `A`. -/
theorem claim_C8 (target : List Char) (v : List Char × List Char)
    (rest : List (List Char × List Char)) :
    ((∀ w ∈ v :: rest, w.1 ≠ target) → selectAutomatic target (v :: rest) = some v) ∧
    ((∃ w ∈ v :: rest, w.1 = target) →
      ∃ u, selectAutomatic target (v :: rest) = some u ∧ u.1 = target ∧ u ∈ v :: rest) ∧
    selectAutomatic ("1280x720".data) exampleRenditions
        = some (("1280x720".data), ("B".data)) ∧
    selectAutomatic ("999x999".data) exampleRenditions
        = some (("1920x1080".data), ("A".data)) := by
  refine ⟨?_, ?_, by decide, by decide⟩
  · intro hnone
    have hfind : (v :: rest).find? (fun w => w.1 == target) = none := by
      apply List.find?_eq_none.mpr
      intro w hw
      simpa using hnone w hw
    simp [selectAutomatic, hfind]
  · intro hex
    have hsome : (List.find? (fun w => w.1 == target) (v :: rest)).isSome = true := by
      apply List.find?_isSome.mpr
      obtain ⟨w, hw, hweq⟩ := hex
      exact ⟨w, hw, by simpa using hweq⟩
    obtain ⟨u, hu⟩ := Option.isSome_iff_exists.mp hsome
    refine ⟨u, ?_, ?_, ?_⟩
    · simp [selectAutomatic, hu]
    · have hpu := List.find?_some hu
      simpa using hpu
    · exact List.mem_of_find?_eq_some hu

/-- Witness for C8 at a concrete no-match input. -/
theorem claim_C8_witness :
    selectAutomatic ("9".data) [(("a".data), ("u".data))] = some (("a".data), ("u".data)) :=
  (claim_C8 ("9".data) (("a".data), ("u".data)) []).1 (by decide)

/-- Claim C2: with the source defaults (`max_retries = 3`, base delay
`b`), three failing attempts produce sleeps `b*1` and `b*2` between the
attempts (linear backoff) and re-raise the third attempt's error rather
than returning; and a segment download that ends in an error aborts the
whole acquisition (`executor.map` consumption propagates the first
error). -/
theorem claim_C2 {ε β : Type} (f : Nat → Except ε β) (b : Nat) (e1 e2 e3 : ε)
    (h1 : f 1 = Except.error e1) (h2 : f 2 = Except.error e2)
    (h3 : f 3 = Except.error e3) :
    download_binary_with_retry f 3 b = (RetryResult.raised e3, [b * 1, b * 2]) ∧
    (∀ (dl : List Char → Except ε (List Nat)) (pre : List (List Char))
        (s : List Char) (post : List (List Char)),
      (∀ p ∈ pre, ∃ v, dl p = Except.ok v) → dl s = Except.error e3 →
      downloadAll dl (pre ++ s :: post) = Except.error e3) := by
  constructor
  · show retryGo f 3 b (List.range' 1 3) = _
    have hr : List.range' 1 3 = [1, 2, 3] := by decide
    rw [hr]
    simp [retryGo, h1, h2, h3]
  · intro dl pre s post hpre hs
    induction pre with
    | nil =>
      show (s :: post).mapM dl = Except.error e3
      rw [List.mapM_cons, hs]
      rfl
    | cons p pre ih =>
      obtain ⟨v, hv⟩ := hpre p (by simp)
      have ih' : (pre ++ s :: post).mapM dl = Except.error e3 :=
        ih (fun q hq => hpre q (by simp [hq]))
      show ((p :: (pre ++ s :: post)).mapM dl) = Except.error e3
      rw [List.mapM_cons, hv]
      rw [ih']
      rfl

/-- Witness for C2: all three attempts fail with errors 1, 2, 3;
base delay 5 gives sleeps [5, 10] and the raised error is the third. -/
theorem claim_C2_witness :
    download_binary_with_retry (fun k => (Except.error k : Except Nat Unit)) 3 5
      = (RetryResult.raised 3, [5 * 1, 5 * 2]) :=
  (claim_C2 (fun k => (Except.error k : Except Nat Unit)) 5 1 2 3 rfl rfl rfl).1

theorem lpAux_ok (uj : List Char → List Char → List Char) (base : List Char)
    (all : List (List Char)) :
    ∀ (suffix : List (List Char)) (i : Nat), all.drop i = suffix →
    (∀ j, i ≤ j → j < all.length →
      List.isPrefixOf streamInfLit (all.getD j []) = true → j + 1 < all.length) →
    lpAux uj base all suffix i =
      Except.ok (((List.range' i suffix.length).filter
          (fun j => List.isPrefixOf streamInfLit (all.getD j []))).map
        (fun j => (resolutionOf (all.getD j []),
                   uj base (pyStrip (all.getD (j + 1) []))))) := by
  intro suffix
  induction suffix with
  | nil =>
    intro i hdrop hgood
    simp [lpAux, List.range']
  | cons line rest ih =>
    intro i hdrop hgood
    have hgetl : all[i]? = some line := by
      have h0 : (all.drop i)[0]? = some line := by rw [hdrop]; simp
      rw [List.getElem?_drop] at h0
      simpa using h0
    have hlen : i < all.length := by
      rcases List.getElem?_eq_some_iff.mp hgetl with ⟨h, _⟩
      exact h
    have hgetD : all.getD i [] = line := by
      rw [List.getD_eq_getElem?_getD, hgetl]
      rfl
    have hdrop1 : all.drop (i + 1) = rest := by
      have h1 := List.drop_drop 1 i all
      rw [hdrop] at h1
      simpa using h1.symm
    have hr : List.range' i (line :: rest).length = i :: List.range' (i + 1) rest.length := by
      simpa using List.range'_succ i rest.length 1
    by_cases hp : List.isPrefixOf streamInfLit line = true
    · have hj1 : i + 1 < all.length := hgood i (le_refl i) hlen (by rw [hgetD]; exact hp)
      have hnxt : all[i + 1]? = some (all.getD (i + 1) []) := by
        cases hx : all[i + 1]? with
        | none =>
          have := List.getElem?_eq_none_iff.mp hx
          omega
        | some x =>
          simp [List.getD_eq_getElem?_getD, hx]
      have hrec := ih (i + 1) hdrop1 (fun j hj hjl hpj => hgood j (by omega) hjl hpj)
      simp only [lpAux, hp, if_true, hnxt, hrec]
      rw [hr]
      rw [List.filter_cons_of_pos (by rw [hgetD]; exact hp)]
      simp [Except.map, hgetD, hgetl]
    · have hrec := ih (i + 1) hdrop1 (fun j hj hjl hpj => hgood j (by omega) hjl hpj)
      have hp' : List.isPrefixOf streamInfLit line = false :=
        Bool.eq_false_iff.mpr hp
      simp only [lpAux, hp', if_false, Bool.false_eq_true, hrec]
      rw [hr]
      rw [List.filter_cons_of_neg (by rw [hgetD]; simp [hp'])]

theorem lpAux_error (uj : List Char → List Char → List Char) (base : List Char)
    (all : List (List Char)) :
    ∀ (suffix : List (List Char)) (i : Nat), all.drop i = suffix →
    ∀ j, i ≤ j → j + 1 = all.length →
    List.isPrefixOf streamInfLit (all.getD j []) = true →
    lpAux uj base all suffix i = Except.error () := by
  intro suffix
  induction suffix with
  | nil =>
    intro i hdrop j hij hjlen hpj
    exfalso
    have hle : all.length - i = 0 := by
      have h1 := congrArg List.length hdrop
      simpa using h1
    omega
  | cons line rest ih =>
    intro i hdrop j hij hjlen hpj
    have hgetl : all[i]? = some line := by
      have h0 : (all.drop i)[0]? = some line := by rw [hdrop]; simp
      rw [List.getElem?_drop] at h0
      simpa using h0
    have hlen : i < all.length := by
      rcases List.getElem?_eq_some_iff.mp hgetl with ⟨h, _⟩
      exact h
    have hgetD : all.getD i [] = line := by
      rw [List.getD_eq_getElem?_getD, hgetl]
      rfl
    have hdrop1 : all.drop (i + 1) = rest := by
      have h1 := List.drop_drop 1 i all
      rw [hdrop] at h1
      simpa using h1.symm
    by_cases hp : List.isPrefixOf streamInfLit line = true
    · by_cases hji : i = j
      · have hnone : all[i + 1]? = none := by
          apply List.getElem?_eq_none
          omega
        simp [lpAux, hp, hnone]
      · have hlt : i < j := Nat.lt_of_le_of_ne hij hji
        have hnxt : ∃ x, all[i + 1]? = some x := by
          cases hx : all[i + 1]? with
          | none =>
            have := List.getElem?_eq_none_iff.mp hx
            omega
          | some x => exact ⟨x, rfl⟩
        obtain ⟨x, hx⟩ := hnxt
        have hrec := ih (i + 1) hdrop1 j (by omega) hjlen hpj
        simp [lpAux, hp, hx, hrec, Except.map]
    · by_cases hji : i = j
      · exfalso
        rw [← hji, hgetD] at hpj
        exact absurd hpj hp
      · have hp' : List.isPrefixOf streamInfLit line = false :=
          Bool.eq_false_iff.mpr hp
        have hrec := ih (i + 1) hdrop1 j (by omega) hjlen hpj
        simp [lpAux, hp', hrec]

/-- Claim C10: variant parsing reads `lines[i+1]` for each marker line; it
succeeds when every marker line is followed by at least one more line, and
for any input whose LAST line is a marker line the access is out of bounds
and the `IndexError` branch is reached. -/
theorem claim_C10 (uj : List Char → List Char → List Char) (content base : List Char) :
    ((∀ i, i < (linesOf content).length →
        List.isPrefixOf streamInfLit ((linesOf content).getD i []) = true →
        i + 1 < (linesOf content).length) →
      ∃ vs, list_playlists uj content base = Except.ok vs) ∧
    (∀ l, (linesOf content).getLast? = some l →
      List.isPrefixOf streamInfLit l = true →
      list_playlists uj content base = Except.error ()) := by
  constructor
  · intro h
    exact ⟨_, lpAux_ok uj base (linesOf content) (linesOf content) 0 (by simp)
      (fun j _ hjl hpj => h j hjl hpj)⟩
  · intro l hlast hp
    have hne : (linesOf content).length ≠ 0 := by
      intro h0
      have hnil : linesOf content = [] := List.length_eq_zero.mp h0
      rw [hnil] at hlast
      simp at hlast
    have hgl : (linesOf content).getD ((linesOf content).length - 1) [] = l := by
      rw [List.getD_eq_getElem?_getD, ← List.getLast?_eq_getElem?, hlast]
      rfl
    exact lpAux_error uj base (linesOf content) (linesOf content) 0 (by simp)
      ((linesOf content).length - 1) (by omega) (by omega) (by rw [hgl]; exact hp)

/-- Witness for C10: a playlist whose only (hence last) line is a marker
line makes `list_playlists` raise. -/
theorem claim_C10_witness :
    list_playlists (fun b r => b ++ r) ("#EXT-X-STREAM-INF:RESOLUTION=1x1".data) ("b".data)
      = Except.error () :=
  (claim_C10 (fun b r => b ++ r) ("#EXT-X-STREAM-INF:RESOLUTION=1x1".data) ("b".data)).2
    ("#EXT-X-STREAM-INF:RESOLUTION=1x1".data) (by decide) (by decide)

/-- Counterexample to C5 as stated: when the line immediately after the
variant-info marker is itself a marker line (`#EXTINF:4`), the code
resolves THAT line as the variant's playlist reference, not the next
non-marker line (`low.m3u8`) that the spec describes. -/
theorem claim_C5_counterexample :
    list_playlists (fun b r => b ++ r)
        ("#EXT-X-STREAM-INF:RESOLUTION=640x360\n#EXTINF:4\nlow.m3u8".data) ("http://h/".data)
      = Except.ok [(("640x360".data), ("http://h/#EXTINF:4".data))] ∧
    parseVariants_spec (fun b r => b ++ r)
        ("#EXT-X-STREAM-INF:RESOLUTION=640x360\n#EXTINF:4\nlow.m3u8".data) ("http://h/".data)
      = [(("640x360".data), ("http://h/low.m3u8".data))] ∧
    ("http://h/#EXTINF:4".data) ≠ ("http://h/low.m3u8".data) :=
  ⟨by decide, by decide, by decide⟩

/-- Claim C5 (amended): provided every variant-info marker line is
followed by at least one more line, `list_playlists` returns exactly one
variant per marker line, in source order; each variant's resolution is
the regex-extracted `RESOLUTION` attribute (else the unknown marker), and
its playlist URL is the LITERAL next line `lines[i+1]` (stripped and
resolved against the base URL), even when that line is a marker line. -/
theorem claim_C5_amended (uj : List Char → List Char → List Char) (content base : List Char)
    (h : ∀ i, i < (linesOf content).length →
        List.isPrefixOf streamInfLit ((linesOf content).getD i []) = true →
        i + 1 < (linesOf content).length) :
    list_playlists uj content base =
      Except.ok (((List.range (linesOf content).length).filter
          (fun i => List.isPrefixOf streamInfLit ((linesOf content).getD i []))).map
        (fun i => (resolutionOf ((linesOf content).getD i []),
                   uj base (pyStrip ((linesOf content).getD (i + 1) []))))) := by
  rw [List.range_eq_range']
  exact lpAux_ok uj base (linesOf content) (linesOf content) 0 (by simp)
    (fun j _ hjl hpj => h j hjl hpj)

/-- Witness for the amended C5 on a two-variant master playlist. -/
theorem claim_C5_amended_witness :
    list_playlists (fun b r => b ++ r)
        ("#EXT-X-STREAM-INF:RESOLUTION=640x360\nlow.m3u8\n#EXT-X-STREAM-INF:X=1\nhi.m3u8".data)
        ("http://h/".data)
      = Except.ok [(("640x360".data), ("http://h/low.m3u8".data)),
                   (("Unknown resolution".data), ("http://h/hi.m3u8".data))] :=
  (claim_C5_amended (fun b r => b ++ r)
      ("#EXT-X-STREAM-INF:RESOLUTION=640x360\nlow.m3u8\n#EXT-X-STREAM-INF:X=1\nhi.m3u8".data)
      ("http://h/".data) (by decide)).trans (by decide)

/-- Counterexample to C4 as stated: a text classified as a master playlist
(the marker occurs as a substring) from which zero variants are parsed
makes `main` take the `return` branch — a normal, non-error return — not
a raised, run-aborting error. -/
theorem claim_C4_counterexample :
    mainModel (fun b r => b ++ r) ("x#EXT-X-STREAM-INF".data) ("u".data) 1
        (fun _ => []) (fun _ => (Except.ok [] : Except Unit (List Nat)))
      = MainOutcome.noPlaylistsReturn ∧
    isErrorOutcome (MainOutcome.noPlaylistsReturn : MainOutcome Unit) = false :=
  ⟨by decide, rfl⟩

/-- Claim C4 (amended): a master playlist from which zero variants are
parsed causes `main` to print a notice and RETURN NORMALLY (exit status
zero, no output produced); it does not raise. -/
theorem claim_C4_amended {ε : Type} (uj : List Char → List Char → List Char)
    (master url : List Char) (choice : Nat) (fetch : List Char → List Char)
    (dl : List Char → Except ε (List Nat))
    (hm : is_master_playlist master = true)
    (hz : list_playlists uj master url = Except.ok []) :
    mainModel uj master url choice fetch dl = MainOutcome.noPlaylistsReturn ∧
    isErrorOutcome (mainModel uj master url choice fetch dl) = false := by
  have h1 : mainModel uj master url choice fetch dl = MainOutcome.noPlaylistsReturn := by
    simp [mainModel, hm, hz]
  exact ⟨h1, by rw [h1]; rfl⟩

/-- Witness for the amended C4. -/
theorem claim_C4_amended_witness :
    mainModel (fun b r => b ++ r) ("x#EXT-X-STREAM-INF\nseg".data) ("u".data) 2
        (fun _ => []) (fun _ => (Except.ok [] : Except Unit (List Nat)))
      = MainOutcome.noPlaylistsReturn :=
  (claim_C4_amended (fun b r => b ++ r) ("x#EXT-X-STREAM-INF\nseg".data) ("u".data) 2
    (fun _ => []) (fun _ => (Except.ok [] : Except Unit (List Nat)))
    (by decide) (by decide)).1

theorem filterKeyGe_split (w : Nat) (buf : List (Nat × List Nat)) :
    (buf.filter (fun p => w ≤ p.1)).length
      = (buf.filter (fun p => p.1 == w)).length
        + (buf.filter (fun p => w + 1 ≤ p.1)).length := by
  induction buf with
  | nil => rfl
  | cons p rest ih =>
    simp only [List.filter_cons]
    by_cases h1 : p.1 = w
    · have h2 : w ≤ p.1 := by omega
      have h3 : ¬ (w + 1 ≤ p.1) := by omega
      simp [h1, h2, h3, ih]
      omega
    · by_cases h2 : w ≤ p.1
      · have h3 : w + 1 ≤ p.1 := by omega
        simp [h1, h2, h3, ih]
        omega
      · have h3 : ¬ (w + 1 ≤ p.1) := by omega
        simp [h1, h2, h3, ih]

theorem filterKeyEq_length_one (w : Nat) (buf : List (Nat × List Nat))
    (hnd : (buf.map Prod.fst).Nodup) (hmem : w ∈ buf.map Prod.fst) :
    (buf.filter (fun p => p.1 == w)).length = 1 := by
  induction buf with
  | nil => simp at hmem
  | cons p rest ih =>
    simp only [List.map_cons, List.nodup_cons] at hnd
    obtain ⟨hp1, hnd'⟩ := hnd
    simp only [List.map_cons, List.mem_cons] at hmem
    by_cases h1 : p.1 = w
    · have hrest : rest.filter (fun q => q.1 == w) = [] := by
        rw [List.filter_eq_nil_iff]
        intro q hq
        have hq1 : q.1 ∈ rest.map Prod.fst := List.mem_map_of_mem _ hq
        simp only [beq_iff_eq]
        intro hqw
        rw [hqw, ← h1] at hq1
        exact hp1 hq1
      simp [List.filter_cons, h1, hrest]
    · have hmem' : w ∈ rest.map Prod.fst := by
        rcases hmem with h | h
        · exact absurd h.symm h1
        · exact h
      simp [List.filter_cons, h1, ih hnd' hmem']

theorem flushFuel_spec (dl : Nat → List Nat) :
    ∀ (fuel : Nat) (s : EngSt),
    (∀ p ∈ s.buf, p.2 = dl p.1) →
    (s.buf.map Prod.fst).Nodup →
    (s.buf.filter (fun p => s.nextWrite ≤ p.1)).length ≤ fuel →
    ∃ w', s.nextWrite ≤ w' ∧
      flushFuel fuel s =
        { count := s.count, buf := s.buf, nextWrite := w',
          events := s.events ++ (List.range' s.nextWrite (w' - s.nextWrite)).map Ev.write,
          out := s.out ++ ((List.range' s.nextWrite (w' - s.nextWrite)).map dl).flatten } ∧
      (∀ p ∈ s.buf, p.1 ≠ w') ∧
      (∀ m, s.nextWrite ≤ m → m < w' → m ∈ s.buf.map Prod.fst) := by
  intro fuel
  induction fuel with
  | zero =>
    intro s hpay hnd hfuel
    refine ⟨s.nextWrite, le_refl _, ?_, ?_, ?_⟩
    · show s = _
      cases s with
      | mk c b w e o => simp
    · intro p hp hpw
      have hmemf : p ∈ s.buf.filter (fun q => s.nextWrite ≤ q.1) :=
        List.mem_filter.mpr ⟨hp, by simp [hpw]⟩
      have hpos : 0 < (s.buf.filter (fun q => s.nextWrite ≤ q.1)).length :=
        List.length_pos.mpr (List.ne_nil_of_mem hmemf)
      omega
    · intro m h1 h2
      omega
  | succ fuel ih =>
    intro s hpay hnd hfuel
    cases hlk : lookupBuf s.nextWrite s.buf with
    | none =>
      refine ⟨s.nextWrite, le_refl _, ?_, ?_, ?_⟩
      · show flushFuel (fuel + 1) s = _
        simp only [flushFuel, hlk]
        cases s with
        | mk c b w e o => simp
      · intro p hp hpw
        have hno := List.find?_eq_none.mp hlk p hp
        simp [hpw] at hno
      · intro m h1 h2
        omega
    | some p =>
      have hpw : p.1 = s.nextWrite := by
        have hbe := List.find?_some hlk
        simpa using hbe
      have hpmem : p ∈ s.buf := List.mem_of_find?_eq_some hlk
      have hpd : p.2 = dl p.1 := hpay p hpmem
      have hkeymem : s.nextWrite ∈ s.buf.map Prod.fst := by
        rw [← hpw]
        exact List.mem_map_of_mem _ hpmem
      have hsplit := filterKeyGe_split s.nextWrite s.buf
      have hone := filterKeyEq_length_one s.nextWrite s.buf hnd hkeymem
      have hfuel2 : (s.buf.filter (fun q => s.nextWrite + 1 ≤ q.1)).length ≤ fuel := by
        omega
      obtain ⟨w', hw1, heq, hnw, hmem⟩ :=
        ih { s with
              nextWrite := s.nextWrite + 1,
              out := s.out ++ p.2,
              events := s.events ++ [Ev.write s.nextWrite] }
          hpay hnd hfuel2
      have hw1' : s.nextWrite + 1 ≤ w' := by simpa using hw1
      have hmem' : ∀ m, s.nextWrite + 1 ≤ m → m < w' → m ∈ s.buf.map Prod.fst := by
        intro m h1 h2
        exact hmem m (by simpa using h1) h2
      have hk : w' - s.nextWrite = (w' - (s.nextWrite + 1)) + 1 := by omega
      refine ⟨w', by omega, ?_, hnw, ?_⟩
      · show flushFuel (fuel + 1) s = _
        simp only [flushFuel, hlk]
        rw [heq]
        have hrange : List.range' s.nextWrite (w' - s.nextWrite)
            = s.nextWrite :: List.range' (s.nextWrite + 1) (w' - (s.nextWrite + 1)) := by
          rw [hk]
          simpa using List.range'_succ s.nextWrite (w' - (s.nextWrite + 1)) 1
        rw [hrange]
        simp [hpd, hpw]
      · intro m h1 h2
        by_cases hm : m = s.nextWrite
        · rw [hm]
          exact hkeymem
        · exact hmem' m (by omega) h2

/-- The engine invariant after the completions in `Q` have been processed:
the shared counter equals the number of completions; the result buffer
holds exactly the completed segments with their payloads; all indices
below the main thread's consumption point have completed, and the
consumption point itself has not; the output file holds the payloads of
the consumed prefix, in index order; and the progress notifications so
far are one per completion, in completion order, with counts `1, 2, ...`. -/
def EngInv (dl : Nat → List Nat) (n : Nat) (Q : List Nat) (s : EngSt) : Prop :=
  s.count = Q.length ∧
  (∀ p ∈ s.buf, p.2 = dl p.1) ∧
  (s.buf.map Prod.fst).Nodup ∧
  (∀ i, i ∈ s.buf.map Prod.fst ↔ i ∈ Q) ∧
  (∀ m, m < s.nextWrite → m ∈ Q) ∧
  s.nextWrite ∉ Q ∧
  s.out = ((List.range s.nextWrite).map dl).flatten ∧
  progTriples s.events = (Q.zip (List.range' 1 Q.length)).map (fun q => (q.1, q.2, n))

theorem engStep_inv (dl : Nat → List Nat) (n : Nat) (Q : List Nat) (s : EngSt) (i : Nat)
    (hInv : EngInv dl n Q s) (hiQ : i ∉ Q) :
    EngInv dl n (Q ++ [i]) (engStep dl n s i) := by
  obtain ⟨hc, hpay, hnd, hkeys, hlow, hnwQ, hout, hprog⟩ := hInv
  have hpay1 : ∀ p ∈ (i, dl i) :: s.buf, p.2 = dl p.1 := by
    intro p hp
    rcases List.mem_cons.mp hp with h | h
    · rw [h]
    · exact hpay p h
  have hnd1 : (((i, dl i) :: s.buf).map Prod.fst).Nodup := by
    simp only [List.map_cons, List.nodup_cons]
    exact ⟨fun hmem => hiQ ((hkeys i).mp hmem), hnd⟩
  obtain ⟨w', hw1, heq, hnw, hmem⟩ :=
    flushFuel_spec dl (((i, dl i) :: s.buf).length)
      { count := s.count + 1,
        buf := (i, dl i) :: s.buf,
        nextWrite := s.nextWrite,
        events := s.events ++ [Ev.prog i (s.count + 1) n],
        out := s.out }
      hpay1 hnd1 (List.length_filter_le _ _)
  have hw1' : s.nextWrite ≤ w' := hw1
  have hnw' : ∀ p ∈ (i, dl i) :: s.buf, p.1 ≠ w' := hnw
  have hmem' : ∀ m, s.nextWrite ≤ m → m < w' → m ∈ ((i, dl i) :: s.buf).map Prod.fst :=
    fun m h1 h2 => hmem m h1 h2
  have hstep : engStep dl n s i =
      { count := s.count + 1,
        buf := (i, dl i) :: s.buf,
        nextWrite := w',
        events := (s.events ++ [Ev.prog i (s.count + 1) n])
          ++ (List.range' s.nextWrite (w' - s.nextWrite)).map Ev.write,
        out := s.out ++ ((List.range' s.nextWrite (w' - s.nextWrite)).map dl).flatten } := by
    show flushFuel _ _ = _
    rw [heq]
  refine ⟨?_, ?_, ?_, ?_, ?_, ?_, ?_, ?_⟩
  · rw [hstep]
    simp [hc]
  · rw [hstep]
    exact hpay1
  · rw [hstep]
    exact hnd1
  · rw [hstep]
    intro j
    show j ∈ ((i, dl i) :: s.buf).map Prod.fst ↔ j ∈ Q ++ [i]
    simp only [List.map_cons, List.mem_cons, List.mem_append, List.mem_singleton, hkeys j]
    tauto
  · rw [hstep]
    intro m hm
    have hm' : m < w' := hm
    simp only [List.mem_append, List.mem_singleton]
    by_cases hlo : m < s.nextWrite
    · exact Or.inl (hlow m hlo)
    · have hmk : m ∈ ((i, dl i) :: s.buf).map Prod.fst :=
        hmem' m (by omega) hm'
      obtain ⟨p, hp, hpe⟩ := List.mem_map.mp hmk
      rcases List.mem_cons.mp hp with h | h
      · rw [h] at hpe
        exact Or.inr hpe.symm
      · refine Or.inl ((hkeys m).mp ?_)
        exact List.mem_map.mpr ⟨p, h, hpe⟩
  · rw [hstep]
    intro hcontra
    show False
    have hcontra' : w' ∈ Q ∨ w' = i := by
      simpa using hcontra
    have hw'mem : w' ∈ ((i, dl i) :: s.buf).map Prod.fst := by
      rcases hcontra' with h | h
      · simp only [List.map_cons, List.mem_cons]
        exact Or.inr ((hkeys w').mpr h)
      · simp [h]
    obtain ⟨p, hp, hpe⟩ := List.mem_map.mp hw'mem
    exact hnw' p hp hpe
  · rw [hstep]
    show s.out ++ _ = _
    rw [hout]
    have h1 := List.range'_append_1 0 s.nextWrite (w' - s.nextWrite)
    simp only [Nat.zero_add] at h1
    have hsplit : List.range' 0 s.nextWrite ++ List.range' s.nextWrite (w' - s.nextWrite)
        = List.range' 0 w' := by
      rw [h1]
      congr 1
      omega
    rw [List.range_eq_range', List.range_eq_range', ← hsplit]
    simp
  · rw [hstep]
    show progTriples ((s.events ++ [Ev.prog i (s.count + 1) n]) ++ _) = _
    have hwr : progTriples ((List.range' s.nextWrite (w' - s.nextWrite)).map Ev.write) = [] := by
      rw [progTriples, List.filterMap_map]
      simp [Function.comp]
    rw [progTriples, List.filterMap_append, List.filterMap_append]
    rw [show List.filterMap _ (List.map Ev.write (List.range' s.nextWrite (w' - s.nextWrite)))
          = progTriples ((List.range' s.nextWrite (w' - s.nextWrite)).map Ev.write) from rfl, hwr]
    rw [show List.filterMap _ s.events = progTriples s.events from rfl, hprog]
    have hzlen : Q.length = (List.range' 1 Q.length).length := by simp
    have hrc : List.range' 1 (Q.length + 1) = List.range' 1 Q.length ++ [1 + Q.length] := by
      simpa using List.range'_1_concat 1 Q.length
    rw [List.length_append, List.length_singleton, hrc, List.zip_append hzlen]
    simp [hc, Nat.add_comm]

theorem engineRun_inv (dl : Nat → List Nat) (n : Nat) :
    ∀ (order Q : List Nat) (s : EngSt),
    EngInv dl n Q s → (Q ++ order).Nodup →
    EngInv dl n (Q ++ order) (order.foldl (engStep dl n) s) := by
  intro order
  induction order with
  | nil =>
    intro Q s h hnd
    simpa using h
  | cons i rest ih =>
    intro Q s h hnd
    have hassoc : Q ++ i :: rest = (Q ++ [i]) ++ rest := by simp
    have hnd' : ((Q ++ [i]) ++ rest).Nodup := by
      rw [← hassoc]
      exact hnd
    have hiQ : i ∉ Q := by
      have hdisj := (List.nodup_append.mp hnd).2.2
      intro hmem
      exact hdisj hmem (List.mem_cons_self i rest)
    have h2 := engStep_inv dl n Q s i h hiQ
    have h3 := ih (Q ++ [i]) (engStep dl n s i) h2 hnd'
    rw [hassoc]
    exact h3

/-- Claim C1: for any completion order that is a permutation of the
segment indices `0..n-1`, the bytes the engine writes to the output
stream are exactly the concatenation of the segment payloads in strictly
increasing index order — byte-identical to a strictly sequential
download. -/
theorem claim_C1 (dl : Nat → List Nat) (n : Nat) (order : List Nat)
    (h : List.Perm order (List.range n)) :
    (engineRun dl n order).out = seqDownload dl n := by
  have hinit : EngInv dl n [] engInit := by
    refine ⟨rfl, ?_, ?_, ?_, ?_, ?_, ?_, ?_⟩ <;> simp [engInit, progTriples]
  have hnd : (([] : List Nat) ++ order).Nodup := by
    simp only [List.nil_append]
    exact h.nodup_iff.mpr (List.nodup_range n)
  have hfin : EngInv dl n order (engineRun dl n order) := by
    have h3 := engineRun_inv dl n order [] engInit hinit hnd
    simpa using h3
  obtain ⟨_, _, _, _, hlow, hnwQ, hout, _⟩ := hfin
  have hn : (engineRun dl n order).nextWrite = n := by
    by_contra hne
    rcases Nat.lt_or_ge (engineRun dl n order).nextWrite n with hlt | hge
    · exact hnwQ (h.mem_iff.mpr (List.mem_range.mpr hlt))
    · have hlt2 : n < (engineRun dl n order).nextWrite := by omega
      have hmem2 : n ∈ order := hlow n hlt2
      have hmem3 : n ∈ List.range n := h.mem_iff.mp hmem2
      simp at hmem3
  rw [hout, hn]
  rfl

/-- Witness for C1 at the completion order `[2, 0, 1]` of three segments. -/
theorem claim_C1_witness :
    List.Perm [2, 0, 1] (List.range 3) ∧
    (engineRun (fun i => [i + 1]) 3 [2, 0, 1]).out = seqDownload (fun i => [i + 1]) 3 :=
  ⟨by decide, claim_C1 (fun i => [i + 1]) 3 [2, 0, 1] (by decide)⟩

/-- Counterexample to C9 as stated: with two segments whose downloads
complete in the order `[1, 0]`, the full event trace is: progress for
segment 1 (count 1), progress for segment 0 (count 2), then the writes of
segments 0 and 1.  Segment 1's progress notification (the first event)
happens strictly BEFORE its bytes are written (the last event), so the
notification is not made "only after that segment's bytes have been
durably written". -/
theorem claim_C9_counterexample :
    (engineRun (fun i => [i]) 2 [1, 0]).events
      = [Ev.prog 1 1 2, Ev.prog 0 2 2, Ev.write 0, Ev.write 1] ∧
    List.indexOf (Ev.prog 1 1 2) (engineRun (fun i => [i]) 2 [1, 0]).events
      < List.indexOf (Ev.write 1) (engineRun (fun i => [i]) 2 [1, 0]).events :=
  ⟨by decide, by decide⟩

/-- Claim C9 (amended): in every run over `n` segments in which all
downloads eventually succeed (any completion order that is a permutation
of `0..n-1`), the progress observer is invoked exactly once per segment —
not once per attempt, since retries happen inside the per-segment
download call — with monotonically increasing counts `1..n` in completion
order; each notification happens when the segment's download completes,
which may be BEFORE its bytes are written to the output sink. -/
theorem claim_C9_amended (dl : Nat → List Nat) (n : Nat) (order : List Nat)
    (h : List.Perm order (List.range n)) :
    progTriples (engineRun dl n order).events
      = (order.zip (List.range' 1 order.length)).map (fun q => (q.1, q.2, n)) := by
  have hinit : EngInv dl n [] engInit := by
    refine ⟨rfl, ?_, ?_, ?_, ?_, ?_, ?_, ?_⟩ <;> simp [engInit, progTriples]
  have hnd : (([] : List Nat) ++ order).Nodup := by
    simp only [List.nil_append]
    exact h.nodup_iff.mpr (List.nodup_range n)
  have hfin : EngInv dl n order (engineRun dl n order) := by
    have h3 := engineRun_inv dl n order [] engInit hinit hnd
    simpa using h3
  exact hfin.2.2.2.2.2.2.2

/-- Witness for the amended C9 at the completion order `[1, 0]`. -/
theorem claim_C9_amended_witness :
    List.Perm [1, 0] (List.range 2) ∧
    progTriples (engineRun (fun i => [i]) 2 [1, 0]).events
      = ([1, 0].zip (List.range' 1 2)).map (fun q => (q.1, q.2, 2)) :=
  ⟨by decide, claim_C9_amended (fun i => [i]) 2 [1, 0] (by decide)⟩

theorem isBreak_pyWs (c : Char) (h : isBreak c = true) : pyWs c = true := by
  simp only [isBreak, Bool.or_eq_true, beq_iff_eq] at h
  rcases h with ((((((((h | h) | h) | h) | h) | h) | h) | h) | h) | h <;>
    subst h <;> decide

theorem digit_not_pyWs (c : Char) (h : c.isDigit = true) : pyWs c = false := by
  cases hw : pyWs c with
  | false => rfl
  | true =>
    exfalso
    simp only [pyWs, Bool.or_eq_true, beq_iff_eq] at hw
    rcases hw with (((((((((((((((((((((((((((hw | hw) | hw) | hw) | hw) | hw) | hw) | hw)
      | hw) | hw) | hw) | hw) | hw) | hw) | hw) | hw) | hw) | hw) | hw) | hw) | hw) | hw)
      | hw) | hw) | hw) | hw) | hw) | hw) | hw <;> subst hw <;> simp at h

theorem digit_not_isBreak (c : Char) (h : c.isDigit = true) : isBreak c = false := by
  cases hb : isBreak c with
  | false => rfl
  | true =>
    exfalso
    simp only [isBreak, Bool.or_eq_true, beq_iff_eq] at hb
    rcases hb with ((((((((hb | hb) | hb) | hb) | hb) | hb) | hb) | hb) | hb) | hb <;>
      subst hb <;> simp at h

theorem digitChar_isDigit (d : Nat) (h : d < 10) : (Char.ofNat (48 + d)).isDigit = true := by
  interval_cases d <;> decide

theorem decCharsAux_digits :
    ∀ (fuel n : Nat) (acc : List Char), (∀ c ∈ acc, c.isDigit = true) →
    ∀ c ∈ decCharsAux fuel n acc, c.isDigit = true := by
  intro fuel
  induction fuel with
  | zero =>
    intro n acc hacc c hc
    exact hacc c hc
  | succ fuel ih =>
    intro n acc hacc c hc
    rw [decCharsAux] at hc
    by_cases hn : n < 10
    · rw [if_pos hn] at hc
      rcases List.mem_cons.mp hc with h | h
      · rw [h]
        exact digitChar_isDigit n hn
      · exact hacc c h
    · rw [if_neg hn] at hc
      refine ih (n / 10) _ ?_ c hc
      intro d hd
      rcases List.mem_cons.mp hd with h | h
      · rw [h]
        exact digitChar_isDigit (n % 10) (Nat.mod_lt _ (by omega))
      · exact hacc d h

theorem decChars_digits (n : Nat) : ∀ c ∈ decChars n, c.isDigit = true :=
  decCharsAux_digits (n + 1) n [] (by simp)

theorem decCharsAux_ne_nil (fuel n : Nat) (acc : List Char) (hacc : acc ≠ [] ∨ 0 < fuel) :
    decCharsAux fuel n acc ≠ [] := by
  induction fuel generalizing n acc with
  | zero =>
    rcases hacc with h | h
    · exact h
    · omega
  | succ fuel ih =>
    rw [decCharsAux]
    by_cases hn : n < 10
    · rw [if_pos hn]
      simp
    · rw [if_neg hn]
      exact ih (n / 10) _ (Or.inl (by simp))

theorem decChars_ne_nil (n : Nat) : decChars n ≠ [] :=
  decCharsAux_ne_nil (n + 1) n [] (Or.inr (by omega))

theorem mapBreak_not_isBreak (c : Char) (h : isBreak c = false) : mapBreak c = c := by
  rw [mapBreak, if_neg]
  simp [h]

theorem isBreak_mapBreak (c : Char) : isBreak (mapBreak c) = isBreak c := by
  by_cases h : isBreak c = true
  · rw [mapBreak, if_pos h, h]
    decide
  · have h' : isBreak c = false := Bool.eq_false_iff.mpr h
    rw [mapBreak_not_isBreak c h']

theorem dropEndWhile_prefix (p : Char → Bool) (y : List Char) :
    ∃ t, y = dropEndWhile p y ++ t := by
  refine ⟨(y.reverse.takeWhile p).reverse, ?_⟩
  rw [dropEndWhile, ← List.reverse_append, List.takeWhile_append_dropWhile, List.reverse_reverse]

theorem head?_pyStrip (l : List Char) (c : Char) (h : (pyStrip l).head? = some c) :
    pyWs c = false := by
  obtain ⟨t, ht⟩ := dropEndWhile_prefix pyWs (l.dropWhile pyWs)
  have hm : (l.dropWhile pyWs).head? = some c := by
    rw [ht, List.head?_append]
    rw [pyStrip] at h
    rw [h]
    rfl
  have hd := List.head?_dropWhile_not pyWs l
  rw [hm] at hd
  exact hd

theorem getLast?_pyStrip (l : List Char) (c : Char) (h : (pyStrip l).getLast? = some c) :
    pyWs c = false := by
  rw [pyStrip, dropEndWhile, List.getLast?_reverse] at h
  have hd := List.head?_dropWhile_not pyWs (l.dropWhile pyWs).reverse
  rw [h] at hd
  exact hd

theorem pyStrip_eq_self (l : List Char)
    (hh : ∀ c, l.head? = some c → pyWs c = false)
    (hl : ∀ c, l.getLast? = some c → pyWs c = false) :
    pyStrip l = l := by
  have h1 : l.dropWhile pyWs = l := by
    cases l with
    | nil => rfl
    | cons a t =>
      have := hh a rfl
      rw [List.dropWhile_cons_of_neg]
      simp [this]
  rw [pyStrip, h1, dropEndWhile]
  cases hr : l.reverse with
  | nil =>
    have : l = [] := by
      have := congrArg List.reverse hr
      simpa using this
    simp [this]
  | cons a t =>
    have ha : l.getLast? = some a := by
      rw [← List.head?_reverse, hr]
      rfl
    have := hl a ha
    rw [List.dropWhile_cons_of_neg (by simp [this])]
    rw [← hr, List.reverse_reverse]

theorem pyStrip_subset (l : List Char) : ∀ c ∈ pyStrip l, c ∈ l := by
  intro c hc
  rw [pyStrip, dropEndWhile] at hc
  rw [List.mem_reverse] at hc
  have h1 := (List.dropWhile_sublist (l := (l.dropWhile pyWs).reverse) pyWs).subset hc
  rw [List.mem_reverse] at h1
  exact (List.dropWhile_sublist pyWs).subset h1

theorem pySplitlines_ne_nil (l : List Char) (hl : l ≠ []) : pySplitlines l ≠ [] := by
  induction l using pySplitlines.induct with
  | case1 => exact absurd rfl hl
  | case2 rest ih => simp [pySplitlines]
  | case3 c rest h1 h2 ih =>
    rw [pySplitlines.eq_3 c rest h1, if_pos h2]
    simp
  | case4 c rest h1 h2 ih =>
    rw [pySplitlines.eq_3 c rest h1, if_neg h2]
    cases hP : pySplitlines rest with
    | nil => simp [consHead]
    | cons p ps => simp [consHead]

theorem pySplitlines_eq_nil (l : List Char) (h : pySplitlines l = []) : l = [] := by
  by_contra hne
  exact pySplitlines_ne_nil l hne h

theorem pySplitlines_not_break (l : List Char) :
    ∀ ln ∈ pySplitlines l, ∀ c ∈ ln, isBreak c = false := by
  induction l using pySplitlines.induct with
  | case1 => simp [pySplitlines]
  | case2 rest ih =>
    intro ln hln c hc
    rw [pySplitlines] at hln
    rcases List.mem_cons.mp hln with h | h
    · rw [h] at hc
      simp at hc
    · exact ih ln h c hc
  | case3 c0 rest h1 h2 ih =>
    intro ln hln c hc
    rw [pySplitlines.eq_3 c0 rest h1, if_pos h2] at hln
    rcases List.mem_cons.mp hln with h | h
    · rw [h] at hc
      simp at hc
    · exact ih ln h c hc
  | case4 c0 rest h1 h2 ih =>
    intro ln hln c hc
    rw [pySplitlines.eq_3 c0 rest h1, if_neg h2] at hln
    cases hP : pySplitlines rest with
    | nil =>
      rw [hP] at hln
      simp only [consHead, List.mem_singleton] at hln
      rw [hln] at hc
      rcases List.mem_cons.mp hc with h | h
      · rw [h]
        exact Bool.eq_false_iff.mpr h2
      · simp at h
    | cons p ps =>
      rw [hP] at hln
      simp only [consHead] at hln
      rcases List.mem_cons.mp hln with h | h
      · rw [h] at hc
        rcases List.mem_cons.mp hc with h3 | h3
        · rw [h3]
          exact Bool.eq_false_iff.mpr h2
        · exact ih p (by rw [hP]; exact List.mem_cons_self p ps) c h3
      · exact ih ln (by rw [hP]; exact List.mem_cons_of_mem p h) c hc

theorem pySplitlines_head (l : List Char) (hl : l ≠ []) :
    (pySplitlines l).head? = some (l.takeWhile (fun c => !isBreak c)) := by
  induction l using pySplitlines.induct with
  | case1 => exact absurd rfl hl
  | case2 rest ih =>
    rw [pySplitlines]
    have hb : isBreak '\r' = true := by decide
    simp [List.takeWhile_cons, hb]
  | case3 c rest h1 h2 ih =>
    rw [pySplitlines.eq_3 c rest h1, if_pos h2]
    simp [List.takeWhile_cons, h2]
  | case4 c rest h1 h2 ih =>
    rw [pySplitlines.eq_3 c rest h1, if_neg h2]
    have h2' : isBreak c = false := Bool.eq_false_iff.mpr h2
    cases hP : pySplitlines rest with
    | nil =>
      have hrest : rest = [] := pySplitlines_eq_nil rest hP
      rw [hrest]
      simp [consHead, List.takeWhile_cons, h2']
    | cons p ps =>
      have hrest : rest ≠ [] := by
        intro h
        rw [h] at hP
        simp [pySplitlines] at hP
      have ihr := ih hrest
      rw [hP] at ihr
      simp only [List.head?_cons, Option.some.injEq] at ihr
      simp [consHead, List.takeWhile_cons, h2', ihr]

theorem joinSep_cons_head (s : List Char) (c : Char) (p : List Char) (ps : List (List Char)) :
    joinSep s ((c :: p) :: ps) = c :: joinSep s (p :: ps) := by
  cases ps with
  | nil => rfl
  | cons q qs => rfl

theorem joinSep_nl_pySplitlines (l : List Char) (hr : '\r' ∉ l)
    (hlast : ∀ c, l.getLast? = some c → isBreak c = false) :
    joinSep ['\n'] (pySplitlines l) = l.map mapBreak := by
  induction l using pySplitlines.induct with
  | case1 => rfl
  | case2 rest ih =>
    exfalso
    exact hr (List.mem_cons_self _ _)
  | case3 c rest h1 h2 ih =>
    rw [pySplitlines.eq_3 c rest h1, if_pos h2]
    have hrest : rest ≠ [] := by
      intro h
      have hg : (c :: rest).getLast? = some c := by rw [h]; rfl
      exact absurd (hlast c hg) (by simp [h2])
    have hgl : (c :: rest).getLast? = rest.getLast? := by
      cases rest with
      | nil => exact absurd rfl hrest
      | cons b t => rw [List.getLast?_cons_cons]
    have ihr := ih (fun hm => hr (List.mem_cons_of_mem _ hm))
      (fun d hd => hlast d (by rw [hgl]; exact hd))
    cases hP : pySplitlines rest with
    | nil => exact absurd hP (pySplitlines_ne_nil rest hrest)
    | cons p ps =>
      rw [hP] at ihr
      have hjoin : joinSep ['\n'] ([] :: p :: ps) = '\n' :: joinSep ['\n'] (p :: ps) := rfl
      rw [hjoin, ihr]
      have hmc : mapBreak c = '\n' := by rw [mapBreak, if_pos h2]
      simp [hmc]
  | case4 c rest h1 h2 ih =>
    rw [pySplitlines.eq_3 c rest h1, if_neg h2]
    have h2' : isBreak c = false := Bool.eq_false_iff.mpr h2
    cases hP : pySplitlines rest with
    | nil =>
      have hrest : rest = [] := pySplitlines_eq_nil rest hP
      rw [hrest]
      simp [consHead, joinSep, mapBreak_not_isBreak c h2']
    | cons p ps =>
      have hrest : rest ≠ [] := by
        intro h
        rw [h] at hP
        simp [pySplitlines] at hP
      have hgl : (c :: rest).getLast? = rest.getLast? := by
        cases rest with
        | nil => exact absurd rfl hrest
        | cons b t => rw [List.getLast?_cons_cons]
      have ihr := ih (fun hm => hr (List.mem_cons_of_mem _ hm))
        (fun d hd => hlast d (by rw [hgl]; exact hd))
      rw [hP] at ihr
      simp only [consHead]
      rw [joinSep_cons_head, ihr]
      simp [mapBreak_not_isBreak c h2']

theorem splitNN_ne_nil (l : List Char) : splitNN l ≠ [] := by
  induction l using splitNN.induct with
  | case1 rest ih => simp [splitNN]
  | case2 c rest h1 h2 ih =>
    rw [splitNN.eq_2 c rest h1, h2]
    simp
  | case3 c rest h1 p ps h2 ih =>
    rw [splitNN.eq_2 c rest h1, h2]
    simp
  | case4 => simp [splitNN]

theorem splitNN_no_sub (b : List Char) (h : containsSub ['\n', '\n'] b = false) :
    splitNN b = [b] := by
  induction b using splitNN.induct with
  | case1 rest ih =>
    exfalso
    rw [containsSub] at h
    simp [List.isPrefixOf] at h
  | case2 c rest h1 h2 ih =>
    have hrest : rest = [] := by
      by_contra hne
      exact splitNN_ne_nil rest (by
        have h3 := ih (by
          rw [containsSub, Bool.or_eq_false_iff] at h
          exact h.2)
        rw [h2] at h3
        exact absurd h3.symm (by simp))
    rw [splitNN.eq_2 c rest h1, h2, hrest]
  | case3 c rest h1 p ps h2 ih =>
    have hsub : containsSub ['\n', '\n'] rest = false := by
      rw [containsSub, Bool.or_eq_false_iff] at h
      exact h.2
    have h3 := ih hsub
    rw [h2] at h3
    obtain ⟨hp, hps⟩ := List.cons_eq_cons.mp h3
    rw [splitNN.eq_2 c rest h1, h2, hp, hps]
  | case4 =>
    rfl

theorem splitNN_append (b : List Char) (s : List Char)
    (hsub : containsSub ['\n', '\n'] b = false)
    (hlast : b.getLast? ≠ some '\n') :
    splitNN (b ++ '\n' :: '\n' :: s) = b :: splitNN s := by
  induction b with
  | nil =>
    simp only [List.nil_append]
    rw [splitNN]
  | cons c b' ih =>
    have hexcl : ∀ rest, c = '\n' → b' ++ '\n' :: '\n' :: s = '\n' :: rest → False := by
      intro rest hc hb
      cases hb' : b' with
      | nil =>
        rw [hb'] at hlast
        simp [hc] at hlast
      | cons d t =>
        rw [hb'] at hb
        have hd : d = '\n' := by
          have := congrArg List.head? hb
          simpa using this
        rw [containsSub] at hsub
        rw [hc, hb', hd] at hsub
        simp [List.isPrefixOf] at hsub
    have hsub' : containsSub ['\n', '\n'] b' = false := by
      rw [containsSub, Bool.or_eq_false_iff] at hsub
      exact hsub.2
    have hlast' : b'.getLast? ≠ some '\n' := by
      cases hb' : b' with
      | nil => simp
      | cons d t =>
        intro hgl
        apply hlast
        rw [hb', List.getLast?_cons_cons]
        exact hgl
    have ihr := ih hsub' hlast'
    rw [List.cons_append, splitNN.eq_2 c (b' ++ '\n' :: '\n' :: s) hexcl, ihr]

theorem splitNN_joinSep (bs : List (List Char)) (hne : bs ≠ [])
    (hgood : ∀ b ∈ bs, b ≠ [] ∧ containsSub ['\n', '\n'] b = false ∧ b.getLast? ≠ some '\n') :
    splitNN (joinSep ['\n', '\n'] bs) = bs := by
  induction bs with
  | nil => exact absurd rfl hne
  | cons b rest ih =>
    cases rest with
    | nil =>
      show splitNN b = [b]
      exact splitNN_no_sub b (hgood b (List.mem_cons_self _ _)).2.1
    | cons b2 rest2 =>
      have hb := hgood b (List.mem_cons_self _ _)
      have hjoin : joinSep ['\n', '\n'] (b :: b2 :: rest2)
          = b ++ '\n' :: '\n' :: joinSep ['\n', '\n'] (b2 :: rest2) := by
        show b ++ ['\n', '\n'] ++ joinSep ['\n', '\n'] (b2 :: rest2) = _
        rw [List.append_assoc]
        rfl
      rw [hjoin, splitNN_append b _ hb.2.1 hb.2.2]
      rw [ih (by simp) (fun q hq => hgood q (List.mem_cons_of_mem b hq))]

theorem splitNN_chars (l : List Char) : ∀ p ∈ splitNN l, ∀ c ∈ p, c ∈ l := by
  induction l using splitNN.induct with
  | case1 rest ih =>
    intro p hp c hc
    rw [splitNN] at hp
    rcases List.mem_cons.mp hp with h | h
    · rw [h] at hc
      simp at hc
    · exact List.mem_cons_of_mem _ (List.mem_cons_of_mem _ (ih p h c hc))
  | case2 c0 rest h1 h2 ih =>
    intro p hp c hc
    rw [splitNN.eq_2 c0 rest h1, h2] at hp
    simp only [List.mem_singleton] at hp
    rw [hp] at hc
    have hceq : c = c0 := by simpa using hc
    rw [hceq]
    exact List.mem_cons_self _ _
  | case3 c0 rest h1 q qs h2 ih =>
    intro p hp c hc
    rw [splitNN.eq_2 c0 rest h1, h2] at hp
    rcases List.mem_cons.mp hp with h | h
    · rw [h] at hc
      rcases List.mem_cons.mp hc with h3 | h3
      · rw [h3]
        exact List.mem_cons_self _ _
      · exact List.mem_cons_of_mem _ (ih q (by rw [h2]; exact List.mem_cons_self _ _) c h3)
    · exact List.mem_cons_of_mem _ (ih p (by rw [h2]; exact List.mem_cons_of_mem _ h) c hc)
  | case4 =>
    intro p hp c hc
    rw [splitNN] at hp
    simp only [List.mem_singleton] at hp
    rw [hp] at hc
    simp at hc

theorem removeWEBVTTnl_eq_self (l : List Char)
    (h : containsSub ("WEBVTT\n".data) l = false) : removeWEBVTTnl l = l := by
  induction l using removeWEBVTTnl.induct with
  | case1 rest ih =>
    exfalso
    rw [containsSub] at h
    simp [List.isPrefixOf] at h
  | case2 c rest h1 ih =>
    have hsub : containsSub ("WEBVTT\n".data) rest = false := by
      rw [containsSub, Bool.or_eq_false_iff] at h
      exact h.2
    rw [removeWEBVTTnl.eq_2 c rest h1, ih hsub]
  | case3 => rfl

theorem containsSub_mem (p : List Char) (l : List Char) (h : containsSub p l = true) :
    ∀ c ∈ p, c ∈ l := by
  induction l with
  | nil =>
    rw [containsSub] at h
    intro c hc
    rw [List.isEmpty_iff.mp h] at hc
    simp at hc
  | cons a rest ih =>
    rw [containsSub, Bool.or_eq_true] at h
    intro c hc
    rcases h with h | h
    · have hpre := List.isPrefixOf_iff_prefix.mp h
      exact hpre.subset hc
    · exact List.mem_cons_of_mem _ (ih h c hc)

theorem joinSep_head (s : List Char) (b : List Char) (rest : List (List Char)) (hb : b ≠ []) :
    (joinSep s (b :: rest)).head? = b.head? := by
  cases rest with
  | nil => rfl
  | cons b2 rest2 =>
    show (b ++ s ++ joinSep s (b2 :: rest2)).head? = b.head?
    rw [List.append_assoc, List.head?_append]
    cases hb' : b with
    | nil => exact absurd hb' hb
    | cons c t => rfl

theorem joinSep_getLast (s : List Char) :
    ∀ (bs : List (List Char)) (b : List Char), bs.getLast? = some b → b ≠ [] →
    (joinSep s bs).getLast? = b.getLast? := by
  intro bs
  induction bs with
  | nil =>
    intro b hb
    simp at hb
  | cons b0 rest ih =>
    intro b hb hbne
    cases rest with
    | nil =>
      have : b0 = b := by simpa using hb
      rw [this]
      rfl
    | cons b2 rest2 =>
      have hb' : (b2 :: rest2).getLast? = some b := by
        rw [← hb, List.getLast?_cons_cons]
      show (b0 ++ s ++ joinSep s (b2 :: rest2)).getLast? = b.getLast?
      rw [List.append_assoc, List.getLast?_append]
      rw [List.getLast?_append]
      rw [ih b hb' hbne]
      cases hlb : b.getLast? with
      | none =>
        exfalso
        rw [List.getLast?_eq_none_iff] at hlb
        exact hbne hlb
      | some c => rfl

theorem joinSep_mem (s : List Char) :
    ∀ (bs : List (List Char)) (c : Char), c ∈ joinSep s bs → c ∈ s ∨ ∃ b ∈ bs, c ∈ b := by
  intro bs
  induction bs with
  | nil =>
    intro c hc
    simp [joinSep] at hc
  | cons b rest ih =>
    intro c hc
    cases rest with
    | nil =>
      exact Or.inr ⟨b, List.mem_cons_self _ _, hc⟩
    | cons b2 rest2 =>
      have hc' : c ∈ b ++ s ++ joinSep s (b2 :: rest2) := hc
      rw [List.append_assoc, List.mem_append] at hc'
      rcases hc' with h | h
      · exact Or.inr ⟨b, List.mem_cons_self _ _, h⟩
      · rw [List.mem_append] at h
        rcases h with h | h
        · exact Or.inl h
        · rcases ih c h with h2 | ⟨q, hq, hcq⟩
          · exact Or.inl h2
          · exact Or.inr ⟨q, List.mem_cons_of_mem _ hq, hcq⟩

theorem head?_mem {l : List Char} {c : Char} (h : l.head? = some c) : c ∈ l := by
  cases l with
  | nil => simp at h
  | cons a t =>
    have : c = a := by simpa using h.symm
    rw [this]
    exact List.mem_cons_self _ _

/-- A block as produced by the `vtt_to_srt` loop: non-empty, with
non-whitespace first and last characters, containing no line-break
characters other than the newline, and whose first line (the prefix up to
the first newline) does not contain the `-->` token. -/
def goodBlock (b : List Char) : Prop :=
  b ≠ [] ∧
  (∀ c, b.head? = some c → pyWs c = false) ∧
  (∀ c, b.getLast? = some c → pyWs c = false) ∧
  (∀ c ∈ b, isBreak c = true → c = '\n') ∧
  containsSub arrowLit (b.takeWhile (fun c => !isBreak c)) = false

theorem mapBreak_block_last (sp : List Char)
    (hl : ∀ c, sp.getLast? = some c → pyWs c = false) :
    ∀ c, (sp.map mapBreak).getLast? = some c → pyWs c = false := by
  intro c hc
  rw [List.getLast?_map] at hc
  cases hsp : sp.getLast? with
  | none =>
    rw [hsp] at hc
    simp at hc
  | some d =>
    rw [hsp] at hc
    have hcd : c = mapBreak d := by simpa using hc.symm
    have hdws := hl d hsp
    have hdb : isBreak d = false := by
      cases hb : isBreak d with
      | false => rfl
      | true =>
        rw [isBreak_pyWs d hb] at hdws
        simp at hdws
    rw [hcd, mapBreak_not_isBreak d hdb]
    exact hdws

theorem mapBreak_block_head (sp : List Char)
    (hh : ∀ c, sp.head? = some c → pyWs c = false) :
    ∀ c, (sp.map mapBreak).head? = some c → pyWs c = false := by
  intro c hc
  rw [List.head?_map] at hc
  cases hsp : sp.head? with
  | none =>
    rw [hsp] at hc
    simp at hc
  | some d =>
    rw [hsp] at hc
    have hcd : c = mapBreak d := by simpa using hc.symm
    have hdws := hh d hsp
    have hdb : isBreak d = false := by
      cases hb : isBreak d with
      | false => rfl
      | true =>
        rw [isBreak_pyWs d hb] at hdws
        simp at hdws
    rw [hcd, mapBreak_not_isBreak d hdb]
    exact hdws

theorem mapBreak_block_breaks (sp : List Char) :
    ∀ c ∈ sp.map mapBreak, isBreak c = true → c = '\n' := by
  intro c hc hb
  obtain ⟨d, hd, hdc⟩ := List.mem_map.mp hc
  by_cases hdb : isBreak d = true
  · rw [← hdc, mapBreak, if_pos hdb]
  · exfalso
    have hid : mapBreak d = d := mapBreak_not_isBreak d (Bool.eq_false_iff.mpr hdb)
    rw [← hdc, hid] at hb
    exact hdb hb

theorem mapBreak_block_takeWhile (sp : List Char) :
    (sp.map mapBreak).takeWhile (fun c => !isBreak c)
      = sp.takeWhile (fun c => !isBreak c) := by
  rw [List.takeWhile_map]
  have h2 : ((fun c => !isBreak c) ∘ mapBreak) = (fun c => !isBreak c) := by
    funext c
    simp [Function.comp, isBreak_mapBreak]
  rw [h2]
  have h3 : ∀ c ∈ sp.takeWhile (fun c => !isBreak c), mapBreak c = c := by
    intro c hc
    have hcb := List.mem_takeWhile_imp hc
    exact mapBreak_not_isBreak c (by simpa using hcb)
  calc (sp.takeWhile (fun c => !isBreak c)).map mapBreak
      = (sp.takeWhile (fun c => !isBreak c)).map id := List.map_congr_left h3
    _ = sp.takeWhile (fun c => !isBreak c) := List.map_id _

theorem goodBlock_map (sp : List Char) (hne : sp ≠ [])
    (hh : ∀ c, sp.head? = some c → pyWs c = false)
    (hl : ∀ c, sp.getLast? = some c → pyWs c = false)
    (harrow : containsSub arrowLit (sp.takeWhile (fun c => !isBreak c)) = false) :
    goodBlock (sp.map mapBreak) := by
  refine ⟨by simp [hne], mapBreak_block_head sp hh, mapBreak_block_last sp hl,
    mapBreak_block_breaks sp, ?_⟩
  rw [mapBreak_block_takeWhile]
  exact harrow

theorem goodBlock_numbered (k : Nat) (rest' : List Char) (hne : rest' ≠ [])
    (hl : ∀ c, rest'.getLast? = some c → pyWs c = false)
    (hbk : ∀ c ∈ rest', isBreak c = true → c = '\n') :
    goodBlock (decChars k ++ '\n' :: rest') := by
  have hdig := decChars_digits k
  have hcne := decChars_ne_nil k
  refine ⟨?_, ?_, ?_, ?_, ?_⟩
  · intro h
    rw [List.append_eq_nil] at h
    simp at h
  · intro c hc
    rw [List.head?_append] at hc
    cases hd : (decChars k).head? with
    | none =>
      exfalso
      rw [List.head?_eq_none_iff] at hd
      exact hcne hd
    | some d =>
      rw [hd] at hc
      have hcd : c = d := by simpa using hc.symm
      rw [hcd]
      exact digit_not_pyWs d (hdig d (head?_mem hd))
  · intro c hc
    rw [List.getLast?_append] at hc
    cases hle : rest'.getLast? with
    | none =>
      exfalso
      rw [List.getLast?_eq_none_iff] at hle
      exact hne hle
    | some e =>
      have h2 : ('\n' :: rest').getLast? = some e := by
        rw [List.getLast?_cons, hle]
        rfl
      rw [h2] at hc
      have hce : c = e := by simpa using hc.symm
      rw [hce]
      exact hl e hle
  · intro c hc hb
    rw [List.mem_append] at hc
    rcases hc with h | h
    · exfalso
      have := digit_not_isBreak c (hdig c h)
      rw [this] at hb
      simp at hb
    · rcases List.mem_cons.mp h with h2 | h2
      · exact h2
      · exact hbk c h2 hb
  · have hdigb : ∀ c ∈ decChars k, (fun c => !isBreak c) c = true := by
      intro c hc
      simp [digit_not_isBreak c (hdig c hc)]
    rw [List.takeWhile_append_of_pos hdigb]
    have hstop : ('\n' :: rest').takeWhile (fun c => !isBreak c) = [] := by
      rw [List.takeWhile_cons]
      have hb : isBreak '\n' = true := by decide
      simp [hb]
    rw [hstop, List.append_nil]
    cases har2 : containsSub arrowLit (decChars k) with
    | false => rfl
    | true =>
      exfalso
      have hdash : '-' ∈ decChars k :=
        containsSub_mem _ _ har2 '-' (by simp [arrowLit])
      have := hdig '-' hdash
      simp at this

theorem joinSep_cons_ne (s : List Char) (x : List Char) (ls : List (List Char)) (h : ls ≠ []) :
    joinSep s (x :: ls) = x ++ s ++ joinSep s ls := by
  cases ls with
  | nil => exact absurd rfl h
  | cons p ps => rfl

theorem vttBlocks_good (pieces : List (List Char)) (hre : ∀ p ∈ pieces, '\r' ∉ p) :
    ∀ k, ∀ b ∈ vttBlocks k pieces, goodBlock b := by
  induction pieces with
  | nil =>
    intro k b hb
    simp [vttBlocks] at hb
  | cons piece rest ih =>
    intro k b hb
    have hre' : ∀ p ∈ rest, '\r' ∉ p := fun q hq => hre q (List.mem_cons_of_mem _ hq)
    simp only [vttBlocks] at hb
    by_cases h1 : (pySplitlines (pyStrip piece)).isEmpty = true
    · rw [if_pos h1] at hb
      exact ih hre' k b hb
    · rw [if_neg h1] at hb
      have hlsne : pySplitlines (pyStrip piece) ≠ [] := by
        simpa [List.isEmpty_iff] using h1
      have hspne : pyStrip piece ≠ [] := by
        intro h
        rw [h] at hlsne
        exact hlsne rfl
      have hspr : '\r' ∉ pyStrip piece :=
        fun h => hre piece (List.mem_cons_self _ _) (pyStrip_subset piece '\r' h)
      have hsplast : ∀ c, (pyStrip piece).getLast? = some c → isBreak c = false := by
        intro c hc
        cases hq : isBreak c with
        | false => rfl
        | true =>
          exfalso
          have hws := getLast?_pyStrip piece c hc
          rw [isBreak_pyWs c hq] at hws
          simp at hws
      have hM : joinSep ['\n'] (pySplitlines (pyStrip piece))
          = (pyStrip piece).map mapBreak :=
        joinSep_nl_pySplitlines _ hspr hsplast
      have hhead := pySplitlines_head (pyStrip piece) hspne
      have hheadD : (pySplitlines (pyStrip piece)).headD []
          = (pyStrip piece).takeWhile (fun c => !isBreak c) := by
        rw [List.headD_eq_head?_getD, hhead]
        rfl
      by_cases h2 : containsSub arrowLit ((pySplitlines (pyStrip piece)).headD []) = true
      · rw [if_pos h2] at hb
        rcases List.mem_cons.mp hb with hbe | hbr
        · rw [hbe, joinSep_cons_ne _ _ _ hlsne]
          have hshape : decChars k ++ ['\n'] ++ joinSep ['\n'] (pySplitlines (pyStrip piece))
              = decChars k ++ '\n' :: (pyStrip piece).map mapBreak := by
            rw [hM, List.append_assoc]
            rfl
          rw [hshape]
          refine goodBlock_numbered k _ ?_ ?_ ?_
          · simp [hspne]
          · exact mapBreak_block_last _ (getLast?_pyStrip piece)
          · exact mapBreak_block_breaks _
        · exact ih hre' (k + 1) b hbr
      · rw [if_neg h2] at hb
        rcases List.mem_cons.mp hb with hbe | hbr
        · rw [hbe, hM]
          refine goodBlock_map _ hspne (head?_pyStrip piece) (getLast?_pyStrip piece) ?_
          rw [← hheadD]
          exact Bool.eq_false_iff.mpr h2
        · exact ih hre' k b hbr

theorem vttBlocks_fixed (bs : List (List Char)) (hgood : ∀ b ∈ bs, goodBlock b) :
    ∀ k, vttBlocks k bs = bs := by
  induction bs with
  | nil =>
    intro k
    rfl
  | cons b rest ih =>
    intro k
    obtain ⟨hne, hh, hl, hbk, har⟩ := hgood b (List.mem_cons_self _ _)
    have hstrip : pyStrip b = b := pyStrip_eq_self b hh hl
    have hr : '\r' ∉ b := by
      intro hm
      have hbad := hbk '\r' hm (by decide)
      simp at hbad
    have hlast' : ∀ c, b.getLast? = some c → isBreak c = false := by
      intro c hc
      cases hq : isBreak c with
      | false => rfl
      | true =>
        exfalso
        have hws := hl c hc
        rw [isBreak_pyWs c hq] at hws
        simp at hws
    have hM := joinSep_nl_pySplitlines b hr hlast'
    have hid : b.map mapBreak = b := by
      have hcongr : ∀ c ∈ b, mapBreak c = c := by
        intro c hc
        cases hcb : isBreak c with
        | true =>
          rw [mapBreak, if_pos hcb]
          exact (hbk c hc hcb).symm
        | false => exact mapBreak_not_isBreak c hcb
      calc b.map mapBreak = b.map id := List.map_congr_left hcongr
        _ = b := List.map_id _
    have hlsne : pySplitlines b ≠ [] := pySplitlines_ne_nil b hne
    have hhead := pySplitlines_head b hne
    have hempty : (pySplitlines (pyStrip b)).isEmpty = false := by
      rw [hstrip]
      simpa [List.isEmpty_iff] using hlsne
    have harD : containsSub arrowLit ((pySplitlines (pyStrip b)).headD []) = false := by
      rw [hstrip, List.headD_eq_head?_getD, hhead]
      exact har
    simp only [vttBlocks]
    rw [hempty]
    simp only [Bool.false_eq_true, if_false]
    rw [harD]
    simp only [Bool.false_eq_true, if_false]
    rw [hstrip, hM, hid]
    rw [ih (fun q hq => hgood q (List.mem_cons_of_mem _ hq)) k]

theorem vttCore_fixed (bs : List (List Char)) (hne : bs ≠ [])
    (hgood : ∀ b ∈ bs, goodBlock b)
    (hnn : ∀ b ∈ bs, containsSub ['\n', '\n'] b = false)
    (hW : containsSub ("WEBVTT\n".data) (joinSep ['\n', '\n'] bs) = false) :
    vttCore (joinSep ['\n', '\n'] bs) = joinSep ['\n', '\n'] bs := by
  have hrJ : '\r' ∉ joinSep ['\n', '\n'] bs := by
    intro hm
    rcases joinSep_mem _ bs '\r' hm with h | ⟨b, hb, hcb⟩
    · simp at h
    · obtain ⟨_, _, _, hbk, _⟩ := hgood b hb
      have hbad := hbk '\r' hcb (by decide)
      simp at hbad
  have hfilter : (joinSep ['\n', '\n'] bs).filter (fun c => c ≠ '\r')
      = joinSep ['\n', '\n'] bs := by
    rw [List.filter_eq_self]
    intro a ha
    simp only [ne_eq, decide_eq_true_eq]
    intro h
    rw [h] at ha
    exact hrJ ha
  have hsplit : splitNN (joinSep ['\n', '\n'] bs) = bs := by
    apply splitNN_joinSep bs hne
    intro b hb
    obtain ⟨hbne, hh, hl, hbk, har⟩ := hgood b hb
    refine ⟨hbne, hnn b hb, ?_⟩
    intro hgl
    have hws := hl '\n' hgl
    rw [show pyWs '\n' = true from by decide] at hws
    simp at hws
  have hblocks : vttBlocks 1 bs = bs := vttBlocks_fixed bs hgood 1
  obtain ⟨b0, rest0, hbs⟩ : ∃ b0 rest0, bs = b0 :: rest0 := by
    cases bs with
    | nil => exact absurd rfl hne
    | cons x y => exact ⟨x, y, rfl⟩
  have hJhead : ∀ c, (joinSep ['\n', '\n'] bs).head? = some c → pyWs c = false := by
    intro c hc
    have hb0 := hgood b0 (by rw [hbs]; exact List.mem_cons_self _ _)
    rw [hbs, joinSep_head _ _ _ hb0.1] at hc
    exact hb0.2.1 c hc
  have hJlast : ∀ c, (joinSep ['\n', '\n'] bs).getLast? = some c → pyWs c = false := by
    intro c hc
    cases hgl : bs.getLast? with
    | none =>
      rw [List.getLast?_eq_none_iff] at hgl
      exact absurd hgl hne
    | some bl =>
      have hblg := hgood bl (List.mem_of_getLast?_eq_some hgl)
      rw [joinSep_getLast _ bs bl hgl hblg.1] at hc
      exact hblg.2.2.1 c hc
  have hstripJ : pyStrip (joinSep ['\n', '\n'] bs) = joinSep ['\n', '\n'] bs :=
    pyStrip_eq_self _ hJhead hJlast
  have hremJ : removeWEBVTTnl (joinSep ['\n', '\n'] bs) = joinSep ['\n', '\n'] bs :=
    removeWEBVTTnl_eq_self _ hW
  show pyStrip (removeWEBVTTnl (joinSep ['\n', '\n']
      (vttBlocks 1 (splitNN ((joinSep ['\n', '\n'] bs).filter (fun c => c ≠ '\r'))))))
    = joinSep ['\n', '\n'] bs
  rw [hfilter, hsplit, hblocks, hremJ, hstripJ]

theorem pyStrip_joinSep_good (bs : List (List Char)) (hne : bs ≠ [])
    (hgood : ∀ b ∈ bs, goodBlock b) :
    pyStrip (joinSep ['\n', '\n'] bs) = joinSep ['\n', '\n'] bs := by
  obtain ⟨b0, rest0, hbs⟩ : ∃ b0 rest0, bs = b0 :: rest0 := by
    cases bs with
    | nil => exact absurd rfl hne
    | cons x y => exact ⟨x, y, rfl⟩
  have hJhead : ∀ c, (joinSep ['\n', '\n'] bs).head? = some c → pyWs c = false := by
    intro c hc
    have hb0 := hgood b0 (by rw [hbs]; exact List.mem_cons_self _ _)
    rw [hbs, joinSep_head _ _ _ hb0.1] at hc
    exact hb0.2.1 c hc
  have hJlast : ∀ c, (joinSep ['\n', '\n'] bs).getLast? = some c → pyWs c = false := by
    intro c hc
    cases hgl : bs.getLast? with
    | none =>
      rw [List.getLast?_eq_none_iff] at hgl
      exact absurd hgl hne
    | some bl =>
      have hblg := hgood bl (List.mem_of_getLast?_eq_some hgl)
      rw [joinSep_getLast _ bs bl hgl hblg.1] at hc
      exact hblg.2.2.1 c hc
  exact pyStrip_eq_self _ hJhead hJlast

/-- Counterexample to C7 as stated: for `t = "xWEBVTT\na --> b"` the first
pass deletes the mid-text `WEBVTT\n`, merging `x` with the `-->` line;
the second pass then sees a block whose first line contains `-->` and
prepends a synthetic index, so `convert (convert t) ≠ convert t`. -/
theorem claim_C7_counterexample :
    vtt_to_srt (vtt_to_srt ("xWEBVTT\na --> b")) ≠ vtt_to_srt ("xWEBVTT\na --> b") := by
  decide

/-- Claim C7 (amended): the second application of `vtt_to_srt` is the
identity on the first pass's output, PROVIDED (i) no processed block
contains two consecutive newlines (blank lines inside a block can only
arise from consecutive exotic line-break characters), and (ii) the
header-strip token `WEBVTT\n` occurs in the joined block text at most as
the leading `WEBVTT` header block.  Without (ii) the header-strip
replacement deletes mid-text occurrences and can merge a `-->` line into
first-line position, making the second pass renumber (see the
counterexample). -/
theorem claim_C7_amended (t : List Char)
    (H2 : ∀ b ∈ vttBlocks 1 (splitNN (t.filter (fun c => c ≠ '\r'))),
      containsSub ['\n', '\n'] b = false)
    (H1 : containsSub ("WEBVTT\n".data)
        (joinSep ['\n', '\n'] (vttBlocks 1 (splitNN (t.filter (fun c => c ≠ '\r'))))) = false
      ∨ ∃ bs, vttBlocks 1 (splitNN (t.filter (fun c => c ≠ '\r'))) = ("WEBVTT".data) :: bs
          ∧ bs ≠ []
          ∧ containsSub ("WEBVTT\n".data) (joinSep ['\n', '\n'] bs) = false) :
    vttCore (vttCore t) = vttCore t := by
  have hre : ∀ p ∈ splitNN (t.filter (fun c => c ≠ '\r')), '\r' ∉ p := by
    intro p hp hm
    have hmem := splitNN_chars _ p hp '\r' hm
    have hbad := (List.mem_filter.mp hmem).2
    simp at hbad
  have hgood := vttBlocks_good _ hre 1
  by_cases hbl : vttBlocks 1 (splitNN (t.filter (fun c => c ≠ '\r'))) = []
  · have ht : vttCore t = [] := by
      simp only [vttCore]
      rw [hbl]
      rfl
    rw [ht]
    rfl
  · rcases H1 with hW | ⟨bs, hbseq, hbsne, hsub⟩
    · have hfix := vttCore_fixed _ hbl hgood H2 hW
      have ht : vttCore t
          = joinSep ['\n', '\n'] (vttBlocks 1 (splitNN (t.filter (fun c => c ≠ '\r')))) := by
        simp only [vttCore]
        rw [removeWEBVTTnl_eq_self _ hW]
        exact pyStrip_joinSep_good _ hbl hgood
      rw [ht, hfix]
    · have hgoodbs : ∀ b ∈ bs, goodBlock b := by
        intro b hb
        exact hgood b (by rw [hbseq]; exact List.mem_cons_of_mem _ hb)
      have hnnbs : ∀ b ∈ bs, containsSub ['\n', '\n'] b = false := by
        intro b hb
        exact H2 b (by rw [hbseq]; exact List.mem_cons_of_mem _ hb)
      have ht : vttCore t = joinSep ['\n', '\n'] bs := by
        simp only [vttCore]
        rw [hbseq, joinSep_cons_ne _ _ _ hbsne]
        have hshape : ("WEBVTT".data) ++ ['\n', '\n'] ++ joinSep ['\n', '\n'] bs
            = 'W' :: 'E' :: 'B' :: 'V' :: 'T' :: 'T' :: '\n' :: '\n'
              :: joinSep ['\n', '\n'] bs := rfl
        rw [hshape]
        have hrem : removeWEBVTTnl ('W' :: 'E' :: 'B' :: 'V' :: 'T' :: 'T' :: '\n' :: '\n'
              :: joinSep ['\n', '\n'] bs) = '\n' :: joinSep ['\n', '\n'] bs := by
          show '\n' :: removeWEBVTTnl (joinSep ['\n', '\n'] bs) = _
          rw [removeWEBVTTnl_eq_self _ hsub]
        rw [hrem]
        have hstrip1 : pyStrip ('\n' :: joinSep ['\n', '\n'] bs)
            = pyStrip (joinSep ['\n', '\n'] bs) := by
          rw [pyStrip, pyStrip, List.dropWhile_cons_of_pos (by decide)]
        rw [hstrip1, pyStrip_joinSep_good bs hbsne hgoodbs]
      rw [ht, vttCore_fixed bs hbsne hgoodbs hnnbs hsub]

/-- Witness for the amended C7 on a typical WebVTT input with a leading
header block and one cue. -/
theorem claim_C7_amended_witness :
    vttCore (vttCore ("WEBVTT\n\na --> b\nHello".data))
      = vttCore ("WEBVTT\n\na --> b\nHello".data) :=
  claim_C7_amended ("WEBVTT\n\na --> b\nHello".data) (by decide)
    (Or.inr ⟨[("1\na --> b\nHello".data)], by decide, by decide, by decide⟩)
